import Mathlib

/-
Verification of the spatial-grounding core of the `spatial-reasoning`
repository: a shallow embedding of `relations/compare_points.py`
(`Location_Offsets`) and `relations/grounding.py` (`SpatialPredictor`),
together with proofs and refutations of the specified properties.

Conventions of the embedding:
* Python floats are modelled by exact rationals `ℚ`; the handful of
  quantities whose source computation takes a square root
  (`np.linalg.norm`, hence `cos_theta` and the relation scores) are
  modelled in `ℝ` with `Real.sqrt`.
* Python dicts keyed by mention id (`defaultdict(list)`) are modelled as
  association lists with explicit defaulting helpers.
* A Python function that can raise is modelled with `Except`; a raise
  site becomes an `.error` constructor named after the raising operation.
-/

deriving instance DecidableEq for Except

namespace S2P

/-- A 3-d coordinate triple (Python lists / numpy arrays of length 3). -/
structure V3 where
  x : ℚ
  y : ℚ
  z : ℚ
  deriving DecidableEq, Repr

instance : Zero V3 := ⟨⟨0, 0, 0⟩⟩

instance : Add V3 := ⟨fun a b => ⟨a.x + b.x, a.y + b.y, a.z + b.z⟩⟩

instance : Sub V3 := ⟨fun a b => ⟨a.x - b.x, a.y - b.y, a.z - b.z⟩⟩

@[simp] lemma V3.zero_def : (0 : V3) = ⟨0, 0, 0⟩ := rfl

@[simp] lemma V3.add_def (a b : V3) : a + b = ⟨a.x + b.x, a.y + b.y, a.z + b.z⟩ := rfl

@[simp] lemma V3.sub_def (a b : V3) : a - b = ⟨a.x - b.x, a.y - b.y, a.z - b.z⟩ := rfl

/-- Componentwise indexing, `v[0], v[1], v[2]` on the Python side.
Out-of-range indices do not occur in the program; they default to `0`. -/
def V3.nth (v : V3) : ℕ → ℚ
  | 0 => v.x
  | 1 => v.y
  | 2 => v.z
  | _ => 0

/-- Componentwise absolute value, `abs(np.array(...))`. -/
def V3.absV (v : V3) : V3 := ⟨|v.x|, |v.y|, |v.z|⟩

/-- Division of a vector by a rational scalar, `(p1 + p2) / 2`. -/
def V3.divQ (v : V3) (q : ℚ) : V3 := ⟨v.x / q, v.y / q, v.z / q⟩

/-- Dot product, `np.dot`. -/
def dotV (a b : V3) : ℚ := a.x * b.x + a.y * b.y + a.z * b.z

/-- numpy `np.sign` on a rational. -/
def sgn (q : ℚ) : ℚ := if q < 0 then -1 else if q = 0 then 0 else 1

/-- Componentwise `np.sign` of a vector. -/
def signV (v : V3) : V3 := ⟨sgn v.x, sgn v.y, sgn v.z⟩

/-- The purely rational part of the record built by
`Location_Offsets.compare_points(o1_pos, o2_pos)`:
`distance = object2_position - object1_position`,
`direction = np.sign(distance)`, and
`xyz_offsets[coord] = object1_position[coord] - object2_position[coord]`.
The angular entries (`cos_theta`, `theta_radians`, `theta_degrees`,
`sin_theta`) involve square roots and are modelled separately in `ℝ`
by `cosTheta` below. -/
structure OffsetRec where
  distance : V3
  direction : V3
  xyzOffsets : V3
  deriving DecidableEq, Repr

/-- The record part of `compare_points` (a pure function of the inputs). -/
def comparePoints (_cam p1 p2 : V3) : OffsetRec :=
  let distance := p2 - p1
  { distance := distance
    direction := signV distance
    xyzOffsets := p1 - p2 }

/-- Error kind the specification claims `compare_points` raises. -/
inductive GeomErr where
  | degenerateGeometry
  deriving DecidableEq, Repr

/-- `compare_points` with its possible raise sites made explicit.  The
body of the source function consists of numpy float operations only;
none of them raises (a zero-magnitude camera vector flows into a
division by zero and produces NaN entries), so the translation has no
`.error` branch at all. -/
def comparePointsExc (cam p1 p2 : V3) : Except GeomErr OffsetRec :=
  .ok (comparePoints cam p1 p2)

/-- `cos_theta` as computed by `compare_points`:
`np.dot(V1, V2) / (np.linalg.norm(V1) * np.linalg.norm(V2))` with
`V1 = object1_position - camera_position`,
`V2 = object2_position - camera_position`.  No clamping is applied. -/
noncomputable def cosTheta (cam p1 p2 : V3) : ℝ :=
  let v1 := p1 - cam
  let v2 := p2 - cam
  ((dotV v1 v2 : ℚ) : ℝ) /
    (Real.sqrt ((dotV v1 v1 : ℚ) : ℝ) * Real.sqrt ((dotV v2 v2 : ℚ) : ℝ))

/-- `Location_Offsets.compare_all_points`: the table over all ordered
pairs `(i, j)` of distinct indices, in the source's insertion order. -/
def compareAllPoints (cam : V3) (ps : List V3) : List ((ℕ × ℕ) × OffsetRec) :=
  (List.range ps.length).flatMap fun i =>
    (List.range ps.length).filterMap fun j =>
      if i = j then none
      else some ((i, j), comparePoints cam (ps.getD i 0) (ps.getD j 0))

/-- `Location_Offsets.get_obj_offsets(idx)`: the sub-table of pairs whose
first component is `idx`, as a mapping `other index → record`. -/
def getObjOffsets (cam : V3) (ps : List V3) (idx : ℕ) : List (ℕ × OffsetRec) :=
  (compareAllPoints cam ps).filterMap fun e =>
    if e.1.1 = idx then some (e.1.2, e.2) else none

section GeometryLemmas

lemma sub_nth (a b : V3) (k : ℕ) : (a - b).nth k = a.nth k - b.nth k := by
  match k with
  | 0 => rfl
  | 1 => rfl
  | 2 => rfl
  | n + 3 => simp [V3.nth]

lemma signV_nth (v : V3) (k : ℕ) : (signV v).nth k = sgn (v.nth k) := by
  match k with
  | 0 => rfl
  | 1 => rfl
  | 2 => rfl
  | n + 3 => simp [V3.nth, sgn]

lemma sgn_neg (q : ℚ) : sgn (-q) = - sgn q := by
  rcases lt_trichotomy q 0 with h | h | h
  · simp [sgn, h, not_lt_of_gt, ne_of_lt h, neg_pos.mpr h, not_lt_of_gt (neg_pos.mpr h)]
  · simp [sgn, h]
  · simp [sgn, h, not_lt_of_gt, ne_of_gt h, neg_neg_iff_pos.mpr h, neg_lt_zero.mpr h]

lemma sgn_cases (q : ℚ) : sgn q = -1 ∨ sgn q = 0 ∨ sgn q = 1 := by
  unfold sgn
  split
  · exact Or.inl rfl
  · split
    · exact Or.inr (Or.inl rfl)
    · exact Or.inr (Or.inr rfl)

/-- Membership in the all-pairs table determines the record. -/
lemma compareAllPoints_mem {cam : V3} {ps : List V3} {i j : ℕ} {r : OffsetRec}
    (h : ((i, j), r) ∈ compareAllPoints cam ps) :
    i < ps.length ∧ j < ps.length ∧ i ≠ j ∧
      r = comparePoints cam (ps.getD i 0) (ps.getD j 0) := by
  unfold compareAllPoints at h
  rw [List.mem_flatMap] at h
  obtain ⟨i', hi', hmem⟩ := h
  rw [List.mem_filterMap] at hmem
  obtain ⟨j', hj', heq⟩ := hmem
  by_cases hij : i' = j'
  · simp [hij] at heq
  · simp only [hij, if_false, Option.some.injEq, Prod.mk.injEq] at heq
    obtain ⟨⟨hi1, hj1⟩, hr⟩ := heq
    subst hi1; subst hj1
    exact ⟨List.mem_range.mp hi', List.mem_range.mp hj', hij, hr.symm⟩

end GeometryLemmas

section CauchySchwarz

lemma dotV_self_nonneg (v : V3) : 0 ≤ dotV v v := by
  rcases v with ⟨a, b, c⟩
  simp only [dotV]
  nlinarith [mul_self_nonneg a, mul_self_nonneg b, mul_self_nonneg c]

lemma dotV_self_pos (v : V3) (h : v ≠ (0 : V3)) : 0 < dotV v v := by
  rcases v with ⟨a, b, c⟩
  have h0 : a ≠ 0 ∨ b ≠ 0 ∨ c ≠ 0 := by
    by_contra hc
    push_neg at hc
    exact h (by
      have hz : (0 : V3) = ⟨0, 0, 0⟩ := rfl
      rw [hz, hc.1, hc.2.1, hc.2.2])
  simp only [dotV]
  rcases h0 with ha | hb | hc1
  · nlinarith [mul_self_pos.mpr ha, mul_self_nonneg b, mul_self_nonneg c]
  · nlinarith [mul_self_pos.mpr hb, mul_self_nonneg a, mul_self_nonneg c]
  · nlinarith [mul_self_pos.mpr hc1, mul_self_nonneg a, mul_self_nonneg b]

lemma dotV_sq_le (a b : V3) : dotV a b ^ 2 ≤ dotV a a * dotV b b := by
  rcases a with ⟨a1, a2, a3⟩
  rcases b with ⟨b1, b2, b3⟩
  simp only [dotV]
  nlinarith [sq_nonneg (a1 * b2 - a2 * b1), sq_nonneg (a1 * b3 - a3 * b1),
    sq_nonneg (a2 * b3 - a3 * b2)]

/-- In exact arithmetic the unclamped ratio lies in `[-1, 1]` as soon as
both camera-to-object vectors are nonzero. -/
lemma cosTheta_abs_le (cam p1 p2 : V3) (h1 : p1 - cam ≠ 0) (h2 : p2 - cam ≠ 0) :
    |cosTheta cam p1 p2| ≤ 1 := by
  set v1 := p1 - cam with hv1
  set v2 := p2 - cam with hv2
  have hn1 : (0 : ℝ) < ((dotV v1 v1 : ℚ) : ℝ) := by
    exact_mod_cast dotV_self_pos v1 h1
  have hn2 : (0 : ℝ) < ((dotV v2 v2 : ℚ) : ℝ) := by
    exact_mod_cast dotV_self_pos v2 h2
  have hs1 : 0 < Real.sqrt ((dotV v1 v1 : ℚ) : ℝ) := Real.sqrt_pos.mpr hn1
  have hs2 : 0 < Real.sqrt ((dotV v2 v2 : ℚ) : ℝ) := Real.sqrt_pos.mpr hn2
  have hcs : ((dotV v1 v2 : ℚ) : ℝ) ^ 2 ≤
      ((dotV v1 v1 : ℚ) : ℝ) * ((dotV v2 v2 : ℚ) : ℝ) := by
    exact_mod_cast dotV_sq_le v1 v2
  have habs : |((dotV v1 v2 : ℚ) : ℝ)| ≤
      Real.sqrt ((dotV v1 v1 : ℚ) : ℝ) * Real.sqrt ((dotV v2 v2 : ℚ) : ℝ) := by
    have h1' : |((dotV v1 v2 : ℚ) : ℝ)| = Real.sqrt (((dotV v1 v2 : ℚ) : ℝ) ^ 2) :=
      (Real.sqrt_sq_eq_abs _).symm
    rw [h1', ← Real.sqrt_mul hn1.le]
    exact Real.sqrt_le_sqrt hcs
  have hpos : 0 < Real.sqrt ((dotV v1 v1 : ℚ) : ℝ) * Real.sqrt ((dotV v2 v2 : ℚ) : ℝ) :=
    mul_pos hs1 hs2
  have : |cosTheta cam p1 p2| =
      |((dotV v1 v2 : ℚ) : ℝ)| /
        (Real.sqrt ((dotV v1 v1 : ℚ) : ℝ) * Real.sqrt ((dotV v2 v2 : ℚ) : ℝ)) := by
    rw [cosTheta]
    rw [abs_div, abs_of_pos hpos]
  rw [this, div_le_one hpos]
  exact habs

end CauchySchwarz

/-- Claim C9 (corrected): `compare_points` applies no clamping and
performs no zero-magnitude check.  It always returns a record; a
zero-length camera-to-object vector flows into the division producing
an undefined (NaN) `cos_theta` instead of raising `DegenerateGeometry`.
In exact arithmetic the unclamped `cos_theta` already lies in `[-1, 1]`
whenever both camera-to-object vectors are nonzero. -/
theorem comparePoints_no_clamp_no_degenerate_raise (cam p1 p2 : V3)
    (h1 : p1 - cam ≠ 0) (h2 : p2 - cam ≠ 0) :
    (comparePointsExc cam p1 p2).isOk = true ∧
      -1 ≤ cosTheta cam p1 p2 ∧ cosTheta cam p1 p2 ≤ 1 := by
  refine ⟨rfl, ?_, ?_⟩
  · exact (abs_le.mp (cosTheta_abs_le cam p1 p2 h1 h2)).1
  · exact (abs_le.mp (cosTheta_abs_le cam p1 p2 h1 h2)).2

/-- Witness for C9's theorem at a concrete nondegenerate input. -/
theorem comparePoints_no_clamp_no_degenerate_raise_witness :
    ((⟨1, 0, 0⟩ : V3) - ⟨0, 0, 0⟩ ≠ 0) ∧
      (comparePointsExc ⟨0, 0, 0⟩ ⟨1, 0, 0⟩ ⟨0, 1, 0⟩).isOk = true ∧
      -1 ≤ cosTheta ⟨0, 0, 0⟩ ⟨1, 0, 0⟩ ⟨0, 1, 0⟩ ∧
      cosTheta ⟨0, 0, 0⟩ ⟨1, 0, 0⟩ ⟨0, 1, 0⟩ ≤ 1 := by
  have h1 : ((⟨1, 0, 0⟩ : V3) - ⟨0, 0, 0⟩ ≠ 0) := by
    simp only [V3.sub_def, V3.zero_def, ne_eq, V3.mk.injEq]
    norm_num
  have h2 : ((⟨0, 1, 0⟩ : V3) - ⟨0, 0, 0⟩ ≠ 0) := by
    simp only [V3.sub_def, V3.zero_def, ne_eq, V3.mk.injEq]
    norm_num
  exact ⟨h1, comparePoints_no_clamp_no_degenerate_raise ⟨0, 0, 0⟩ ⟨1, 0, 0⟩ ⟨0, 1, 0⟩ h1 h2⟩

/-- Counterexample to claim C9 as stated: with the camera placed at
`object1`'s position the camera-to-object vector has zero magnitude, yet
`compare_points` returns a record normally (no `DegenerateGeometry` is
raised anywhere in the function). -/
theorem comparePoints_degenerate_counterexample :
    ((⟨2, 3, 1⟩ : V3) - ⟨2, 3, 1⟩ = 0) ∧
      (comparePointsExc ⟨2, 3, 1⟩ ⟨2, 3, 1⟩ ⟨5, 5, 5⟩).isOk = true := by
  refine ⟨?_, rfl⟩
  simp only [V3.sub_def, V3.zero_def, V3.mk.injEq]
  norm_num

/-- Claim C4 (corrected): the `direction` entry of the offset record for
the ordered pair `(i, j)` is the elementwise sign of
`coord_j − coord_i` — the sign of `distance = object2 − object1` — which
is the negated sign of the per-axis delta `xyz_offsets = coord_i −
coord_j`, with values in `{-1, 0, 1}`. -/
theorem compareAllPoints_direction_sign (cam : V3) (ps : List V3)
    (i j : ℕ) (r : OffsetRec) (h : ((i, j), r) ∈ compareAllPoints cam ps) :
    r.direction = signV (ps.getD j 0 - ps.getD i 0) ∧
      (∀ k, r.direction.nth k = - sgn (r.xyzOffsets.nth k)) ∧
      (∀ k, r.direction.nth k = -1 ∨ r.direction.nth k = 0 ∨ r.direction.nth k = 1) := by
  obtain ⟨hi, hj, hij, hr⟩ := compareAllPoints_mem h
  subst hr
  have hd : (comparePoints cam (ps.getD i 0) (ps.getD j 0)).direction =
      signV (ps.getD j 0 - ps.getD i 0) := rfl
  have hx : (comparePoints cam (ps.getD i 0) (ps.getD j 0)).xyzOffsets =
      ps.getD i 0 - ps.getD j 0 := rfl
  refine ⟨hd, ?_, ?_⟩
  · intro k
    rw [hd, hx, signV_nth, sub_nth, sub_nth, ← sgn_neg]
    congr 1
    ring
  · intro k
    rw [hd, signV_nth]
    exact sgn_cases _

/-- Witness for C4's theorem at a concrete pair table. -/
theorem compareAllPoints_direction_sign_witness :
    (((0, 1), comparePoints ⟨7, -7, 5⟩ ⟨0, 0, 0⟩ ⟨1, -2, 0⟩) ∈
        compareAllPoints ⟨7, -7, 5⟩ [⟨0, 0, 0⟩, ⟨1, -2, 0⟩]) ∧
      (comparePoints ⟨7, -7, 5⟩ ⟨0, 0, 0⟩ ⟨1, -2, 0⟩).direction =
        signV (([⟨0, 0, 0⟩, ⟨1, -2, 0⟩] : List V3).getD 1 0 -
          ([⟨0, 0, 0⟩, ⟨1, -2, 0⟩] : List V3).getD 0 0) := by
  have hmem : (((0, 1), comparePoints ⟨7, -7, 5⟩ ⟨0, 0, 0⟩ ⟨1, -2, 0⟩) ∈
      compareAllPoints ⟨7, -7, 5⟩ [⟨0, 0, 0⟩, ⟨1, -2, 0⟩]) := by
    norm_num [compareAllPoints, List.range_succ]
  exact ⟨hmem, (compareAllPoints_direction_sign ⟨7, -7, 5⟩ [⟨0, 0, 0⟩, ⟨1, -2, 0⟩]
    0 1 _ hmem).1⟩

/-- Counterexample to claim C4 as stated: for positions
`p₀ = (0,0,0)` and `p₁ = (1,0,0)` the table entry for the ordered pair
`(0, 1)` has `direction = (1, 0, 0)`, the sign of `coord_1 − coord_0`,
whereas the claim's `sign(coord_i − coord_j)` would be `(-1, 0, 0)`. -/
theorem compareAllPoints_direction_claim_counterexample :
    (((0, 1), comparePoints ⟨7, -7, 5⟩ ⟨0, 0, 0⟩ ⟨1, 0, 0⟩) ∈
        compareAllPoints ⟨7, -7, 5⟩ [⟨0, 0, 0⟩, ⟨1, 0, 0⟩]) ∧
      (comparePoints ⟨7, -7, 5⟩ ⟨0, 0, 0⟩ ⟨1, 0, 0⟩).direction = ⟨1, 0, 0⟩ ∧
      signV ((⟨0, 0, 0⟩ : V3) - ⟨1, 0, 0⟩) = ⟨-1, 0, 0⟩ := by
  refine ⟨by norm_num [compareAllPoints, List.range_succ], ?_, ?_⟩
  · norm_num [comparePoints, signV, sgn]
  · norm_num [signV, sgn]

/-- `SpatialPredictor.calculate_norm(vector)` on a list of rationals:
the L2 magnitude `np.linalg.norm(vector)` (square root of the sum of
squares) and the componentwise normalized vector `vector / magnitude`. -/
noncomputable def calculateNorm (v : List ℚ) : ℝ × List ℝ :=
  let mag : ℝ := Real.sqrt (((v.map fun q => q * q).sum : ℚ) : ℝ)
  (mag, v.map fun q => (q : ℝ) / mag)

/-- `SpatialPredictor.score_relations(xyz_offsets, dim=None, params=(0.3, 1))`.
The source takes `xy_offsets = [xyz_offsets[0], xyz_offsets[1]]`, computes
`magnitude, vec_norm = self.calculate_norm(xy_offsets)`, sets
`norm_offset = vec_norm[dim] if dim else 0`, and returns
`score = -1 * dist_scaling * magnitude + vec_scaling * norm_offset`.
Python's `if dim:` is falsy both when `dim` is `None` and when it is the
integer `0`, which is the point settled by claim C8. -/
noncomputable def scoreRelations (xyzOffsets : V3) (dim : Option ℕ) : ℝ :=
  let distScaling : ℝ := 3 / 10
  let vecScaling : ℝ := 1
  let xyOffsets : List ℚ := [xyzOffsets.nth 0, xyzOffsets.nth 1]
  let mv := calculateNorm xyOffsets
  let normOffset : ℝ :=
    (match dim with
    | some d => if d = 0 then 0 else (mv.2).getD d 0
    | none => 0)
  let score : ℝ := -1 * distScaling * mv.1 + vecScaling * normOffset
  score

/-- Claim C8 (code bug): evaluating `score_relations` at the failing
input `xyz_offsets = (3, 4, 0)`.  For an axis-1 (left/right) call the
score is `-0.3·5 + 4/5`, distance and normalized axis component both
contributing, but for an axis-0 (front/behind) call the normalized axis
component is silently dropped — `if dim:` is false at `dim = 0` — giving
`-0.3·5` instead of the specified `-0.3·5 + 3/5`, even though the
source's comment says the zero branch only covers the
non-dimension-specific `between` case. -/
theorem scoreRelations_axis0_drops_component :
    scoreRelations ⟨3, 4, 0⟩ (some 0) = -(3 / 2) ∧
      scoreRelations ⟨3, 4, 0⟩ (some 1) = -(3 / 2) + 4 / 5 ∧
      scoreRelations ⟨3, 4, 0⟩ (some 0) ≠ -(3 / 2) + 3 / 5 := by
  have harg : ((([((⟨3, 4, 0⟩ : V3).nth 0), ((⟨3, 4, 0⟩ : V3).nth 1)].map
      fun q => q * q).sum : ℚ) : ℝ) = 25 := by
    norm_num [V3.nth]
  have h25 : Real.sqrt (25 : ℝ) = 5 := by
    rw [show (25 : ℝ) = 5 ^ 2 by norm_num]
    exact Real.sqrt_sq (by norm_num)
  refine ⟨?_, ?_, ?_⟩
  · simp only [scoreRelations, calculateNorm, harg, h25]
    norm_num
  · simp only [scoreRelations, calculateNorm, harg, h25]
    norm_num [V3.nth]
  · simp only [scoreRelations, calculateNorm, harg, h25]
    norm_num

/-! ## The candidate graph

`networkx.DiGraph` as used by `SpatialPredictor`: node insertion is
idempotent, `add_edge` inserts missing endpoints and overwrites the
weight of an existing edge, `remove_node` drops a node and all edges
incident to it.  The weight type is a parameter: the source stores
real-valued scores (`ℝ` via `scoreRelations`); the algorithmic claims
hold for any linearly ordered additive weight type. -/

structure Graph (W : Type) where
  nodes : List ℕ
  edges : List (ℕ × ℕ × W)
  deriving DecidableEq, Repr

variable {W : Type}

/-- `G.add_node(n)`. -/
def addNode (G : Graph W) (n : ℕ) : Graph W :=
  if n ∈ G.nodes then G else { G with nodes := G.nodes ++ [n] }

/-- `G.add_edge(u, v, weight=w)`: inserts missing endpoints, overwrites
an existing `(u, v)` edge. -/
def addEdge (G : Graph W) (u v : ℕ) (w : W) : Graph W :=
  let G1 := addNode (addNode G u) v
  if G1.edges.any fun e => e.1 = u && e.2.1 = v then
    { G1 with edges := G1.edges.map fun e => if e.1 = u ∧ e.2.1 = v then (u, v, w) else e }
  else
    { G1 with edges := G1.edges ++ [(u, v, w)] }

/-- `G.remove_node(n)`: removes the node and all incident edges. -/
def removeNode (G : Graph W) (n : ℕ) : Graph W :=
  { nodes := G.nodes.erase n
    edges := G.edges.filter fun e => e.1 ≠ n && e.2.1 ≠ n }

/-- `G.in_edges(n)`. -/
def inEdges (G : Graph W) (n : ℕ) : List (ℕ × ℕ × W) :=
  G.edges.filter fun e => e.2.1 = n

/-- `G.in_degree()[n]`. -/
def inDegree (G : Graph W) (n : ℕ) : ℕ := (inEdges G n).length

/-- Sum of the weights of the edges into `n`. -/
def inWeightSum [AddCommMonoid W] (G : Graph W) (n : ℕ) : W :=
  ((inEdges G n).map fun e => e.2.2).sum

/-- The direct successors of `n`. -/
def succs (G : Graph W) (n : ℕ) : List ℕ :=
  (G.edges.filter fun e => e.1 = n).map fun e => e.2.1

/-- One breadth step of the reachable-set closure. -/
def reachStep (G : Graph W) (s : List ℕ) : List ℕ :=
  (s ++ s.flatMap fun n => succs G n).dedup

/-- Iterated closure (`|V|` steps reach a fixpoint). -/
def reachAux (G : Graph W) : ℕ → List ℕ → List ℕ
  | 0, s => s
  | k + 1, s => reachAux G k (reachStep G s)

/-- `nx.descendants(G, n)`: every node reachable from `n`, except `n`. -/
def descendants (G : Graph W) (n : ℕ) : List ℕ :=
  (reachAux G G.nodes.length [n]).filter fun m => m ≠ n

/-- The leaf list of `prune_tree`:
`[node for node in G.nodes() if len(nx.descendants(G, node)) == 0]`. -/
def leafNodes (G : Graph W) : List ℕ :=
  G.nodes.filter fun n => (descendants G n).isEmpty

/-- No edge loops back to its source; true of every graph this program
builds (`evaluate_pairs` only pairs distinct objects, `decompose` only
links an anchor to a different entity). -/
def NoSelfLoops (G : Graph W) : Prop := ∀ e ∈ G.edges, e.1 ≠ e.2.1

/-- `max(node_in_degrees, key=node_in_degrees.get)` is taken over ALL
nodes of the graph; this is its value. -/
def maxInDegAll (G : Graph W) : ℕ := (G.nodes.map fun n => inDegree G n).foldl max 0

/-- The two raise sites of `prune_tree`:
`max()` of an empty dict (ValueError) and `ranked_predictions[0]` of an
empty list (IndexError). -/
inductive PruneErr where
  | emptyMax
  | noPrediction
  deriving DecidableEq, Repr

structure PruneOut (W : Type) where
  graph : Graph W
  ranked : List (ℕ × W)
  best : ℕ × W
  deriving DecidableEq, Repr

/-- `SpatialPredictor.prune_tree`, with both raise sites explicit.
Leaf nodes and in-degrees are snapshotted first; the loop over leaves
then either records `(leaf, sum of incoming weights)` (reading the sum
from the graph as currently mutated) or removes the leaf; finally the
predictions are sorted by score, descending (Python `sorted` with
`reverse=True`, modelled by a stable structural sort), and the head is
the best object. -/
def pruneFold [AddCommMonoid W] (G : Graph W) (maxd : ℕ) (ls : List ℕ)
    (acc : List (ℕ × W) × Graph W) : List (ℕ × W) × Graph W :=
  ls.foldl (fun acc leaf =>
    if inDegree G leaf = maxd then
      (acc.1 ++ [(leaf, inWeightSum acc.2 leaf)], acc.2)
    else
      (acc.1, removeNode acc.2 leaf)) acc

def pruneTree [LinearOrder W] [AddCommMonoid W] (G : Graph W) :
    Except PruneErr (PruneOut W) :=
  let leaves := leafNodes G
  if G.nodes.isEmpty then .error .emptyMax
  else
    let pg := pruneFold G (maxInDegAll G) leaves (([] : List (ℕ × W)), G)
    let ranked := pg.1.insertionSort fun a b => b.2 ≤ a.2
    match ranked with
    | [] => .error .noPrediction
    | best :: rest => .ok ⟨pg.2, best :: rest, best⟩

section GraphLemmas

lemma subset_reachStep (G : Graph W) (s : List ℕ) : s ⊆ reachStep G s := by
  intro a ha
  unfold reachStep
  rw [List.mem_dedup]
  exact List.mem_append_left _ ha

lemma subset_reachAux (G : Graph W) : ∀ (k : ℕ) (s : List ℕ), s ⊆ reachAux G k s := by
  intro k
  induction k with
  | zero => intro s; exact fun a ha => ha
  | succ k ih =>
    intro s
    exact fun a ha => ih (reachStep G s) (subset_reachStep G s ha)

lemma reachAux_fix (G : Graph W) (s : List ℕ) (h : reachStep G s = s) :
    ∀ k, reachAux G k s = s := by
  intro k
  induction k with
  | zero => rfl
  | succ k ih => show reachAux G k (reachStep G s) = s; rw [h]; exact ih

lemma dedup_cons_all_eq {n : ℕ} : ∀ l : List ℕ, (∀ x ∈ l, x = n) → (n :: l).dedup = [n] := by
  intro l
  induction l with
  | nil => intro _; simp
  | cons x xs ih =>
    intro h
    have hx : x = n := h x (by simp)
    subst hx
    rw [List.dedup_cons_of_mem (by simp : x ∈ x :: xs)]
    exact ih fun y hy => h y (by simp [hy])

lemma reachStep_singleton_fix (G : Graph W) (n : ℕ)
    (h : ∀ m ∈ succs G n, m = n) : reachStep G [n] = [n] := by
  unfold reachStep
  have : ([n] ++ ([n].flatMap fun m => succs G m)) = n :: succs G n := by simp
  rw [this]
  exact dedup_cons_all_eq _ h

lemma descendants_eq_nil_iff (G : Graph W) (n : ℕ) (hn : n ∈ G.nodes) :
    descendants G n = [] ↔ ∀ m ∈ succs G n, m = n := by
  constructor
  · intro hd
    by_contra hc
    push_neg at hc
    obtain ⟨m, hm, hmne⟩ := hc
    have hlen : G.nodes.length ≠ 0 := by
      intro h0
      rw [List.length_eq_zero] at h0
      rw [h0] at hn
      exact absurd hn (List.not_mem_nil n)
    obtain ⟨k, hk⟩ := Nat.exists_eq_succ_of_ne_zero hlen
    have hstep : m ∈ reachStep G [n] := by
      unfold reachStep
      rw [List.mem_dedup, List.mem_append]
      right
      rw [List.mem_flatMap]
      exact ⟨n, by simp, hm⟩
    have hreach : m ∈ reachAux G G.nodes.length [n] := by
      rw [hk]
      exact subset_reachAux G k (reachStep G [n]) hstep
    have : m ∈ descendants G n := by
      unfold descendants
      rw [List.mem_filter]
      exact ⟨hreach, by simp [hmne]⟩
    rw [hd] at this
    exact absurd this (List.not_mem_nil m)
  · intro h
    unfold descendants
    rw [reachAux_fix G [n] (reachStep_singleton_fix G n h)]
    simp

lemma succs_eq_nil_iff (G : Graph W) (n : ℕ) :
    succs G n = [] ↔ ∀ e ∈ G.edges, e.1 ≠ n := by
  unfold succs
  rw [List.map_eq_nil_iff, List.filter_eq_nil_iff]
  simp

lemma mem_succs (G : Graph W) {n m : ℕ} (h : m ∈ succs G n) :
    ∃ e ∈ G.edges, e.1 = n ∧ e.2.1 = m := by
  unfold succs at h
  rw [List.mem_map] at h
  obtain ⟨e, he, hm⟩ := h
  rw [List.mem_filter] at he
  exact ⟨e, he.1, by simpa using he.2, hm⟩

lemma leafNodes_iff_no_out (G : Graph W) (hsl : NoSelfLoops G) (n : ℕ)
    (hn : n ∈ G.nodes) : n ∈ leafNodes G ↔ succs G n = [] := by
  unfold leafNodes
  rw [List.mem_filter]
  constructor
  · rintro ⟨-, hleaf⟩
    rw [List.isEmpty_iff] at hleaf
    rw [descendants_eq_nil_iff G n hn] at hleaf
    rcases hs : succs G n with _ | ⟨m, ms⟩
    · rfl
    · exfalso
      have hm : m ∈ succs G n := by rw [hs]; simp
      obtain ⟨e, he, he1, he2⟩ := mem_succs G hm
      have : m = n := hleaf m hm
      exact hsl e he (by rw [he1, he2, this])
  · intro hs
    refine ⟨hn, ?_⟩
    rw [List.isEmpty_iff, descendants_eq_nil_iff G n hn]
    intro m hm
    rw [hs] at hm
    exact absurd hm (List.not_mem_nil m)

lemma removeNode_edges_subset (G : Graph W) (n : ℕ) :
    (removeNode G n).edges ⊆ G.edges := by
  intro e he
  unfold removeNode at he
  exact (List.mem_filter.mp he).1

lemma inEdges_removeNode (H : Graph W) (l n : ℕ) (hne : n ≠ l)
    (hout : ∀ e ∈ H.edges, e.1 ≠ l) :
    inEdges (removeNode H l) n = inEdges H n := by
  unfold inEdges removeNode
  simp only
  rw [List.filter_filter]
  refine List.filter_congr ?_
  intro e he
  by_cases h2 : e.2.1 = n
  · simp [h2, hout e he, hne]
  · simp [h2]

lemma inWeightSum_removeNode [AddCommMonoid W] (H : Graph W) (l n : ℕ)
    (hne : n ≠ l) (hout : ∀ e ∈ H.edges, e.1 ≠ l) :
    inWeightSum (removeNode H l) n = inWeightSum H n := by
  unfold inWeightSum
  rw [inEdges_removeNode H l n hne hout]

lemma pruneFold_preds [AddCommMonoid W] (G : Graph W) (maxd : ℕ) :
    ∀ (ls : List ℕ) (preds : List (ℕ × W)) (H : Graph W),
      (∀ n, inDegree G n = maxd → inWeightSum H n = inWeightSum G n) →
      (∀ l ∈ ls, inDegree G l ≠ maxd → ∀ e ∈ H.edges, e.1 ≠ l) →
      (pruneFold G maxd ls (preds, H)).1 =
        preds ++ (ls.filter fun l => inDegree G l = maxd).map
          fun l => (l, inWeightSum G l) := by
  intro ls
  induction ls with
  | nil => intro preds H _ _; simp [pruneFold]
  | cons l ls ih =>
    intro preds H hsum hout
    by_cases hd : inDegree G l = maxd
    · have step : pruneFold G maxd (l :: ls) (preds, H) =
          pruneFold G maxd ls (preds ++ [(l, inWeightSum H l)], H) := by
        simp [pruneFold, hd]
      rw [step, ih _ H hsum fun l' hl' => hout l' (by simp [hl'])]
      rw [hsum l hd]
      simp [hd]
    · have step : pruneFold G maxd (l :: ls) (preds, H) =
          pruneFold G maxd ls (preds, removeNode H l) := by
        simp [pruneFold, hd]
      have hsum' : ∀ n, inDegree G n = maxd →
          inWeightSum (removeNode H l) n = inWeightSum G n := by
        intro n hn
        have hne : n ≠ l := fun h => hd (h ▸ hn)
        rw [inWeightSum_removeNode H l n hne (hout l (by simp) hd), hsum n hn]
      have hout' : ∀ l' ∈ ls, inDegree G l' ≠ maxd →
          ∀ e ∈ (removeNode H l).edges, e.1 ≠ l' := by
        intro l' hl' hd' e he
        exact hout l' (by simp [hl']) hd' e (removeNode_edges_subset H l he)
      rw [step, ih _ _ hsum' hout']
      simp [hd]

lemma pruneFold_nodes [AddCommMonoid W] (G : Graph W) (maxd : ℕ) :
    ∀ (ls : List ℕ) (preds : List (ℕ × W)) (H : Graph W), H.nodes.Nodup →
      ∀ n, n ∈ (pruneFold G maxd ls (preds, H)).2.nodes ↔
        n ∈ H.nodes ∧ (n ∉ ls ∨ inDegree G n = maxd) := by
  intro ls
  induction ls with
  | nil => intro preds H _ n; simp [pruneFold]
  | cons l ls ih =>
    intro preds H hnd n
    by_cases hd : inDegree G l = maxd
    · have step : pruneFold G maxd (l :: ls) (preds, H) =
          pruneFold G maxd ls (preds ++ [(l, inWeightSum H l)], H) := by
        simp [pruneFold, hd]
      rw [step, ih _ H hnd n]
      constructor
      · rintro ⟨h1, h2 | h2⟩
        · by_cases hnl : n = l
          · exact ⟨h1, Or.inr (hnl ▸ hd)⟩
          · exact ⟨h1, Or.inl (by simp [hnl, h2])⟩
        · exact ⟨h1, Or.inr h2⟩
      · rintro ⟨h1, h2 | h2⟩
        · exact ⟨h1, Or.inl fun hm => h2 (by simp [hm])⟩
        · exact ⟨h1, Or.inr h2⟩
    · have step : pruneFold G maxd (l :: ls) (preds, H) =
          pruneFold G maxd ls (preds, removeNode H l) := by
        simp [pruneFold, hd]
      have hnd' : (removeNode H l).nodes.Nodup := List.Nodup.erase l hnd
      rw [step, ih _ _ hnd' n]
      have hmem : n ∈ (removeNode H l).nodes ↔ n ≠ l ∧ n ∈ H.nodes :=
        List.Nodup.mem_erase_iff hnd
      rw [hmem]
      constructor
      · rintro ⟨⟨hnl, h1⟩, h2 | h2⟩
        · exact ⟨h1, Or.inl (by simp [hnl, h2])⟩
        · exact ⟨h1, Or.inr h2⟩
      · rintro ⟨h1, h2 | h2⟩
        · have hnl : n ≠ l := fun h => h2 (by simp [h])
          exact ⟨⟨hnl, h1⟩, Or.inl fun hm => h2 (by simp [hm])⟩
        · have hnl : n ≠ l := fun h => hd (h ▸ h2)
          exact ⟨⟨hnl, h1⟩, Or.inr h2⟩

end GraphLemmas

/-- Claim C1 (corrected): `prune_tree` compares each leaf's in-degree
against the maximum in-degree over ALL nodes of the graph
(`max(node_in_degrees, ...)` ranges over every node), not the maximum
among leaves.  Every leaf below that global maximum is removed; the
surviving leaves — exactly the leaves attaining the global maximum —
are ranked by the sum of their incoming edge weights in descending
order, and the head of the ranking is the best node.  (For a self-loop
free graph the code's leaf test, `nx.descendants(G, n) == ∅`, coincides
with "no outgoing edges".)  When no leaf attains the global maximum the
function raises instead of returning a ranking. -/
theorem pruneTree_ranking [LinearOrder W] [AddCommMonoid W] (G : Graph W)
    (hsl : NoSelfLoops G) (hnd : G.nodes.Nodup) (out : PruneOut W)
    (h : pruneTree G = .ok out) :
    (∀ n ∈ G.nodes, (n ∈ leafNodes G ↔ succs G n = [])) ∧
      (∀ p ∈ out.ranked, p.1 ∈ leafNodes G ∧ inDegree G p.1 = maxInDegAll G ∧
        p.2 = inWeightSum G p.1) ∧
      (∀ n ∈ leafNodes G, inDegree G n = maxInDegAll G →
        (n, inWeightSum G n) ∈ out.ranked) ∧
      out.ranked.Pairwise (fun a b => b.2 ≤ a.2) ∧
      out.best ∈ out.ranked ∧ (∀ p ∈ out.ranked, p.2 ≤ out.best.2) ∧
      (∀ n ∈ leafNodes G, inDegree G n ≠ maxInDegAll G → n ∉ out.graph.nodes) ∧
      (∀ n ∈ G.nodes, n ∉ leafNodes G ∨ inDegree G n = maxInDegAll G →
        n ∈ out.graph.nodes) := by
  have hleafmem : ∀ l ∈ leafNodes G, l ∈ G.nodes := by
    intro l hl
    exact (List.mem_filter.mp hl).1
  have hleafout : ∀ l ∈ leafNodes G, ∀ e ∈ G.edges, e.1 ≠ l := by
    intro l hl
    rw [← succs_eq_nil_iff]
    exact (leafNodes_iff_no_out G hsl l (hleafmem l hl)).mp hl
  have hfold1 : (pruneFold G (maxInDegAll G) (leafNodes G) ([], G)).1 =
      ((leafNodes G).filter fun l => inDegree G l = maxInDegAll G).map
        fun l => (l, inWeightSum G l) := by
    rw [pruneFold_preds G (maxInDegAll G) (leafNodes G) [] G
      (fun _ _ => rfl) (fun l hl _ => hleafout l hl)]
    simp
  have hfoldnodes := pruneFold_nodes G (maxInDegAll G) (leafNodes G) [] G hnd
  simp only [pruneTree] at h
  by_cases hemp : G.nodes.isEmpty = true
  · rw [if_pos hemp] at h
    exact absurd h (by simp)
  · rw [if_neg hemp] at h
    haveI htot : IsTotal (ℕ × W) fun a b => b.2 ≤ a.2 := ⟨fun a b => le_total b.2 a.2⟩
    haveI htrans : IsTrans (ℕ × W) fun a b => b.2 ≤ a.2 :=
      ⟨fun _ _ _ hab hbc => le_trans hbc hab⟩
    rcases hr : ((pruneFold G (maxInDegAll G) (leafNodes G) ([], G)).1.insertionSort
        fun a b => b.2 ≤ a.2) with _ | ⟨best, rest⟩
    · rw [hr] at h
      exact absurd h (by simp)
    · rw [hr] at h
      have hout : out = ⟨(pruneFold G (maxInDegAll G) (leafNodes G) ([], G)).2,
          best :: rest, best⟩ := by
        cases h
        rfl
      subst hout
      have hperm : (best :: rest).Perm
          ((pruneFold G (maxInDegAll G) (leafNodes G) ([], G)).1) := by
        rw [← hr]
        exact List.perm_insertionSort _ _
      have hsorted : (best :: rest).Pairwise fun a b : ℕ × W => b.2 ≤ a.2 := by
        rw [← hr]
        exact List.sorted_insertionSort _ _
      refine ⟨fun n hn => leafNodes_iff_no_out G hsl n hn, ?_, ?_, ?_, ?_, ?_, ?_, ?_⟩
      · intro p hp
        have hp1 : p ∈ ((leafNodes G).filter
            fun l => inDegree G l = maxInDegAll G).map
            fun l => (l, inWeightSum G l) := by
          rw [← hfold1]
          exact hperm.mem_iff.mp hp
        rw [List.mem_map] at hp1
        obtain ⟨l, hl, hpl⟩ := hp1
        rw [List.mem_filter] at hl
        subst hpl
        exact ⟨hl.1, by simpa using hl.2, rfl⟩
      · intro n hn hdeg
        refine hperm.symm.mem_iff.mp ?_
        rw [hfold1, List.mem_map]
        exact ⟨n, List.mem_filter.mpr ⟨hn, by simp [hdeg]⟩, rfl⟩
      · exact hsorted
      · exact List.mem_cons_self best rest
      · intro p hp
        rcases List.mem_cons.mp hp with hp' | hp'
        · subst hp'
          exact le_refl _
        · exact (List.pairwise_cons.mp hsorted).1 p hp'
      · intro n hn hdeg hmem
        have := (hfoldnodes n).mp hmem
        rcases this.2 with h' | h'
        · exact h' hn
        · exact hdeg h'
      · intro n hn hcase
        exact (hfoldnodes n).mpr ⟨hn, hcase⟩

/-- The graph on which claim C1's stated property fails: edges
`1→2, 3→2, 2→4` (all weight `1`).  The only leaf is `4`, whose in-degree
`1` is the maximum among leaves, but the non-leaf node `2` has in-degree
`2`, so the code removes leaf `4` and then crashes with an IndexError
(`ranked_predictions[0]` on an empty list). -/
def pruneCexGraph : Graph ℚ :=
  ⟨[1, 2, 3, 4], [(1, 2, 1), (3, 2, 1), (2, 4, 1)]⟩

/-- Counterexample to claim C1 as stated: leaf `4` has the maximal
in-degree among leaves (it is the only leaf), so the claim says it
survives pruning and becomes the best node; the code instead removes it
— the in-degree maximum is taken over all nodes, where node `2` attains
`2` — and raises rather than ranking anything. -/
theorem pruneTree_leaf_max_counterexample :
    leafNodes pruneCexGraph = [4] ∧ inDegree pruneCexGraph 4 = 1 ∧
      inDegree pruneCexGraph 2 = 2 ∧ maxInDegAll pruneCexGraph = 2 ∧
      pruneTree pruneCexGraph = .error .noPrediction := by
  decide

/-- A single-node graph on which `prune_tree` succeeds. -/
def pruneWitGraph : Graph ℚ := ⟨[7], []⟩

/-- Witness for C1's theorem at a concrete graph. -/
theorem pruneTree_ranking_witness :
    NoSelfLoops pruneWitGraph ∧ pruneWitGraph.nodes.Nodup ∧
      pruneTree pruneWitGraph =
        .ok ⟨pruneWitGraph, [(7, (0 : ℚ))], (7, (0 : ℚ))⟩ ∧
      ((7, (0 : ℚ)) ∈ ([(7, (0 : ℚ))] : List (ℕ × ℚ))) := by
  have h1 : NoSelfLoops pruneWitGraph := by
    intro e he
    exact absurd he (List.not_mem_nil e)
  have h2 : pruneWitGraph.nodes.Nodup := by decide
  have h3 : pruneTree pruneWitGraph =
      .ok ⟨pruneWitGraph, [(7, (0 : ℚ))], (7, (0 : ℚ))⟩ := rfl
  have h4 := (pruneTree_ranking pruneWitGraph h1 h2 _ h3).2.2.1 7
    (by decide) (by decide)
  have h5 : inWeightSum pruneWitGraph 7 = 0 := rfl
  rw [h5] at h4
  exact ⟨h1, h2, h3, h4⟩

/-! ## Scene entities, mentions, and the candidate dictionary -/

/-- The part of a scene `Entity` consumed by grounding: its index in
the scene, its shape and its color. -/
structure Entity where
  idx : ℕ
  shape : String
  color : String
  deriving DecidableEq, Repr

/-- An object mention: a `label` (the string `"object"` acts as the
wildcard) and an optional color (`"color" in obj.keys()`). -/
structure ObjMention where
  label : String
  color : Option String := none
  deriving DecidableEq, Repr

/-- Binary relation labels plus the ternary `between`; the source keys
its constraint dictionaries by these strings. -/
inductive RelLabel where
  | left
  | right
  | front
  | behind
  | between
  deriving DecidableEq, Repr

/-- A relation mention `(o1, o2[, o3], label)` over 1-based mention ids. -/
structure RelMention where
  o1 : ℕ
  o2 : ℕ
  o3 : Option ℕ := none
  label : RelLabel
  deriving DecidableEq, Repr

/-- The `mentions` dictionary: object mentions and relation mentions. -/
structure Mentions where
  objects : List ObjMention
  relations : List RelMention
  deriving DecidableEq, Repr

/-- `self.relation_constraints`: label → `[axis, sign]`; a missing key
(`between`) raises KeyError, hence `Option`. -/
def relationConstraints : RelLabel → Option (ℕ × ℚ)
  | .left => some (1, 1)
  | .right => some (1, -1)
  | .front => some (0, -1)
  | .behind => some (0, 1)
  | .between => none

/-- `self.inverse_relations`: the label swap used when `o1`/`o2` are
exchanged; a missing key raises KeyError, hence `Option`. -/
def inverseRelations : RelLabel → Option RelLabel
  | .right => some .left
  | .front => some .behind
  | .left => some .right
  | .behind => some .front
  | .between => none

/-- `defaultdict(list)` keyed by mention id, in key-insertion order. -/
abbrev DMap := List (ℕ × List ℕ)

/-- Plain key lookup (no default insertion). -/
def dfind (m : DMap) (k : ℕ) : Option (List ℕ) :=
  (m.find? fun p => p.1 = k).map fun p => p.2

/-- `k in d.keys()`. -/
def dhasKey (m : DMap) (k : ℕ) : Bool := m.any fun p => p.1 = k

/-- The value stored at `k`, defaulting to `[]`. -/
def dgetD (m : DMap) (k : ℕ) : List ℕ :=
  match dfind m k with
  | some v => v
  | none => []

/-- Assignment `d[k] = v`. -/
def dset (m : DMap) (k : ℕ) (v : List ℕ) : DMap :=
  if dhasKey m k then m.map fun p => if p.1 = k then (k, v) else p
  else m ++ [(k, v)]

/-- Subscripting `d[k]` on a `defaultdict(list)`: returns the stored
value, inserting `[]` first when the key is missing. -/
def dget (m : DMap) (k : ℕ) : List ℕ × DMap :=
  match dfind m k with
  | some v => (v, m)
  | none => ([], m ++ [(k, [])])

/-- `list(reduce(set.union, map(set, [a, b])))`.  Python's set iteration
order is unspecified; the model keeps the last occurrence of each
element, which is membership-equivalent, and no claim depends on the
order. -/
def listUnion (a b : List ℕ) : List ℕ := (a ++ b).dedup

/-- The per-entity matching test inlined in `initial_grounding`:
`features = [entity.shape, entity.color]`, `color = obj.get("color", "")`;
`if mention_label != "object" and color:` requires both
`mention_label in features` and `color in features`;
`elif mention_label in features` / `elif color in features` each match
alone.  Python's truthiness makes a present-but-empty color behave as
absent; membership in `features` lets a label match an entity's color;
the wildcard label `"object"` receives no special treatment. -/
def mentionMatches (m : ObjMention) (e : Entity) : Bool :=
  let features : List String := [e.shape, e.color]
  let color : String :=
    (match m.color with
    | some c => c
    | none => "")
  if m.label ≠ "object" && color ≠ "" then
    features.contains m.label && features.contains color
  else if features.contains m.label then true
  else if features.contains color then true
  else false

/-- The body of `initial_grounding`'s entity loop for the mention with
id `k`: on a match, `grounded[k].append(entity.idx)` (defaultdict) and
`candidate_graph.add_node(entity.idx)`. -/
def seedStep (k : ℕ) (mm : ObjMention) (acc : DMap × Graph W) (e : Entity) :
    DMap × Graph W :=
  if mentionMatches mm e then
    (dset acc.1 k (dgetD acc.1 k ++ [e.idx]), addNode acc.2 e.idx)
  else acc

/-- `SpatialPredictor.initial_grounding(mentions)`: scans every object
mention (ids are `i + 1`) against every entity, appending matching
entity indices to `grounded` and adding them as nodes of the fresh
candidate graph.  The source also accumulates a local `ungrounded` list
of mention ids that matched nothing, but that list is neither returned
nor stored, so it is observationally absent. -/
def initialGrounding (entities : List Entity) (objMentions : List ObjMention) :
    DMap × Graph W :=
  objMentions.enum.foldl
    (fun acc p => entities.foldl (seedStep (p.1 + 1) p.2) acc)
    ([], ⟨[], []⟩)

section DMapLemmas

lemma dfind_map_set {k : ℕ} {v : List ℕ} :
    ∀ m : DMap, dhasKey m k = true →
      dfind (m.map fun p => if p.1 = k then (k, v) else p) k = some v := by
  intro m
  induction m with
  | nil => intro h; simp [dhasKey] at h
  | cons p m ih =>
    intro h
    by_cases hp : p.1 = k
    · simp [dfind, List.find?, hp]
    · have h' : dhasKey m k = true := by
        simp [dhasKey, List.any_cons, hp] at h
        simp [dhasKey, List.any_eq_true]
        exact h
      simp only [List.map_cons, if_neg hp]
      unfold dfind
      rw [List.find?_cons_of_neg _ (by simp [hp])]
      exact ih h'

lemma dfind_append_miss {k : ℕ} {v : List ℕ} :
    ∀ m : DMap, dhasKey m k = false → dfind (m ++ [(k, v)]) k = some v := by
  intro m
  induction m with
  | nil => intro _; simp [dfind, List.find?]
  | cons p m ih =>
    intro h
    have hp : ¬(p.1 = k) := by
      intro hc
      simp [dhasKey, List.any_cons, hc] at h
    have h' : dhasKey m k = false := by
      simp [dhasKey, List.any_cons, hp] at h
      simp [dhasKey, List.any_eq_true]
      intro x hx
      exact h x hx
    simp only [List.cons_append]
    unfold dfind
    rw [List.find?_cons_of_neg _ (by simp [hp])]
    exact ih h'

lemma dgetD_dset_self (m : DMap) (k : ℕ) (v : List ℕ) :
    dgetD (dset m k v) k = v := by
  unfold dgetD dset
  by_cases h : dhasKey m k
  · rw [if_pos h, dfind_map_set m h]
  · rw [if_neg h, dfind_append_miss m (by simpa using h)]

lemma dfind_map_ne {k k' : ℕ} {v : List ℕ} (h : k' ≠ k) :
    ∀ m : DMap, dfind (m.map fun p => if p.1 = k then (k, v) else p) k' = dfind m k' := by
  intro m
  induction m with
  | nil => rfl
  | cons p m ih =>
    by_cases hp : p.1 = k
    · simp only [List.map_cons, if_pos hp]
      unfold dfind
      rw [List.find?_cons_of_neg _ (by simp [Ne.symm h]),
        List.find?_cons_of_neg _ (by simp [hp, Ne.symm h])]
      exact ih
    · simp only [List.map_cons, if_neg hp]
      by_cases hp' : p.1 = k'
      · unfold dfind
        rw [List.find?_cons_of_pos _ (by simp [hp']),
          List.find?_cons_of_pos _ (by simp [hp'])]
      · unfold dfind
        rw [List.find?_cons_of_neg _ (by simp [hp']),
          List.find?_cons_of_neg _ (by simp [hp'])]
        exact ih

lemma dfind_append_ne {k k' : ℕ} {v : List ℕ} (h : k' ≠ k) :
    ∀ m : DMap, dfind (m ++ [(k, v)]) k' = dfind m k' := by
  intro m
  induction m with
  | nil =>
    unfold dfind
    rw [List.nil_append, List.find?_cons_of_neg _ (by simp [Ne.symm h])]
  | cons p m ih =>
    by_cases hp' : p.1 = k'
    · unfold dfind
      rw [List.cons_append, List.find?_cons_of_pos _ (by simp [hp']),
        List.find?_cons_of_pos _ (by simp [hp'])]
    · unfold dfind
      rw [List.cons_append, List.find?_cons_of_neg _ (by simp [hp']),
        List.find?_cons_of_neg _ (by simp [hp'])]
      exact ih

lemma dfind_dset_ne (m : DMap) {k k' : ℕ} (v : List ℕ) (h : k' ≠ k) :
    dfind (dset m k v) k' = dfind m k' := by
  unfold dset
  by_cases hk : dhasKey m k
  · rw [if_pos hk]
    exact dfind_map_ne h m
  · rw [if_neg hk]
    exact dfind_append_ne h m

lemma dgetD_dset_ne (m : DMap) {k k' : ℕ} (v : List ℕ) (h : k' ≠ k) :
    dgetD (dset m k v) k' = dgetD m k' := by
  unfold dgetD
  rw [dfind_dset_ne m v h]

lemma dgetD_nil (k : ℕ) : dgetD ([] : DMap) k = [] := rfl

/-- Every stored value is nonempty. -/
def CandsWF (m : DMap) : Prop := ∀ p ∈ m, p.2 ≠ []

lemma CandsWF_dset {m : DMap} {k : ℕ} {v : List ℕ} (hm : CandsWF m)
    (hv : v ≠ []) : CandsWF (dset m k v) := by
  unfold dset
  by_cases h : dhasKey m k
  · rw [if_pos h]
    intro p hp
    rw [List.mem_map] at hp
    obtain ⟨q, hq, hpq⟩ := hp
    by_cases hqk : q.1 = k
    · rw [if_pos hqk] at hpq
      rw [← hpq]
      exact hv
    · rw [if_neg hqk] at hpq
      rw [← hpq]
      exact hm q hq
  · rw [if_neg h]
    intro p hp
    rcases List.mem_append.mp hp with hp' | hp'
    · exact hm p hp'
    · rw [List.mem_singleton] at hp'
      rw [hp']
      exact hv

lemma CandsWF_dgetD {m : DMap} {k : ℕ} (hm : CandsWF m)
    (hk : dhasKey m k = true) : dgetD m k ≠ [] := by
  unfold dhasKey at hk
  rw [List.any_eq_true] at hk
  obtain ⟨p, hp, hpk⟩ := hk
  have : ∃ q, m.find? (fun p => p.1 = k) = some q := by
    rcases hf : m.find? (fun p => p.1 = k) with _ | q
    · exfalso
      have := List.find?_eq_none.mp hf p hp
      simp at this hpk
      exact this hpk
    · exact ⟨q, hf⟩
  obtain ⟨q, hq⟩ := this
  have hqm : q ∈ m := List.mem_of_find?_eq_some hq
  unfold dgetD dfind
  rw [hq]
  exact hm q hqm

lemma listUnion_ne_nil_right {a b : List ℕ} (hb : b ≠ []) : listUnion a b ≠ [] := by
  unfold listUnion
  intro h
  rcases b with _ | ⟨x, xs⟩
  · exact hb rfl
  · have : x ∈ (a ++ x :: xs).dedup := by
      rw [List.mem_dedup]
      exact List.mem_append_right a (by simp)
    rw [h] at this
    exact absurd this (List.not_mem_nil x)

end DMapLemmas

section SeedLemmas

lemma seedStep_getD_ne {k k' : ℕ} (h : k' ≠ k) (mm : ObjMention)
    (acc : DMap × Graph W) (e : Entity) :
    dgetD (seedStep k mm acc e).1 k' = dgetD acc.1 k' := by
  unfold seedStep
  by_cases hm : mentionMatches mm e
  · rw [if_pos hm]
    exact dgetD_dset_ne acc.1 _ h
  · rw [if_neg hm]

lemma seedInner_getD (k : ℕ) (mm : ObjMention) :
    ∀ (es : List Entity) (acc : DMap × Graph W),
      dgetD (es.foldl (seedStep k mm) acc).1 k =
        dgetD acc.1 k ++ (es.filter fun e => mentionMatches mm e).map fun e => e.idx := by
  intro es
  induction es with
  | nil => intro acc; simp
  | cons e es ih =>
    intro acc
    rw [List.foldl_cons]
    by_cases hm : mentionMatches mm e
    · rw [ih (seedStep k mm acc e)]
      unfold seedStep
      rw [if_pos hm]
      simp only [dgetD_dset_self, List.filter_cons, hm, List.map_cons, List.append_assoc,
        List.cons_append, List.nil_append]
      simp
    · rw [ih (seedStep k mm acc e)]
      unfold seedStep
      rw [if_neg hm]
      simp only [List.filter_cons]
      rw [if_neg (by simp [hm])]

lemma seedInner_getD_ne {k k' : ℕ} (h : k' ≠ k) (mm : ObjMention) :
    ∀ (es : List Entity) (acc : DMap × Graph W),
      dgetD (es.foldl (seedStep k mm) acc).1 k' = dgetD acc.1 k' := by
  intro es
  induction es with
  | nil => intro acc; rfl
  | cons e es ih =>
    intro acc
    rw [List.foldl_cons, ih (seedStep k mm acc e), seedStep_getD_ne h mm acc e]

lemma seedOuter_untouched (entities : List Entity) :
    ∀ (ps : List (ℕ × ObjMention)) (acc : DMap × Graph W) (k : ℕ),
      (∀ q ∈ ps, q.1 + 1 ≠ k) →
      dgetD (ps.foldl (fun acc p => entities.foldl (seedStep (p.1 + 1) p.2) acc) acc).1 k =
        dgetD acc.1 k := by
  intro ps
  induction ps with
  | nil => intro acc k _; rfl
  | cons p ps ih =>
    intro acc k hk
    rw [List.foldl_cons, ih _ k fun q hq => hk q (by simp [hq])]
    exact seedInner_getD_ne (fun h => hk p (by simp) h.symm) p.2 entities acc

lemma seedOuter_getD (entities : List Entity) :
    ∀ (ps : List (ℕ × ObjMention)) (acc : DMap × Graph W) (i : ℕ) (m : ObjMention),
      (i, m) ∈ ps → (ps.map Prod.fst).Nodup →
      dgetD (ps.foldl (fun acc p => entities.foldl (seedStep (p.1 + 1) p.2) acc) acc).1 (i + 1) =
        dgetD acc.1 (i + 1) ++
          (entities.filter fun e => mentionMatches m e).map fun e => e.idx := by
  intro ps
  induction ps with
  | nil => intro acc i m hm _; exact absurd hm (List.not_mem_nil _)
  | cons p ps ih =>
    intro acc i m hm hnd
    rw [List.map_cons] at hnd
    have hnd1 := (List.nodup_cons.mp hnd).1
    have hnd2 := (List.nodup_cons.mp hnd).2
    rw [List.foldl_cons]
    rcases List.mem_cons.mp hm with hm' | hm'
    · have hp : p = (i, m) := hm'.symm
      subst hp
      rw [seedOuter_untouched entities ps _ (i + 1) ?_]
      · exact seedInner_getD (i + 1) m entities acc
      · intro q hq h
        have hqi : q.1 = i := by omega
        have hq1 : q.1 ∈ ps.map Prod.fst := List.mem_map_of_mem Prod.fst hq
        rw [hqi] at hq1
        exact hnd1 hq1
    · have hne : i ≠ p.1 := by
        intro h
        have : i ∈ ps.map Prod.fst := by
          have := List.mem_map_of_mem Prod.fst hm'
          simpa using this
        rw [h] at this
        exact hnd1 this
      rw [ih _ i m hm' hnd2]
      rw [seedInner_getD_ne (by omega) p.2 entities acc]

/-- The matching condition of `initial_grounding`, stated at the
propositional level (`features = [e.shape, e.color]` membership spelled
out as disjunctions of equalities). -/
def MatchesProp (m : ObjMention) (e : Entity) : Prop :=
  let color : String :=
    (match m.color with
    | some c => c
    | none => "")
  if m.label ≠ "object" ∧ color ≠ "" then
    (m.label = e.shape ∨ m.label = e.color) ∧ (color = e.shape ∨ color = e.color)
  else (m.label = e.shape ∨ m.label = e.color) ∨ (color = e.shape ∨ color = e.color)

lemma mentionMatches_iff (m : ObjMention) (e : Entity) :
    mentionMatches m e = true ↔ MatchesProp m e := by
  unfold mentionMatches MatchesProp
  rcases hc : m.color with _ | c
  · simp only
    by_cases h1 : m.label = "object"
    · simp [h1]
    · simp [h1]
  · simp only
    by_cases h1 : m.label = "object"
    · simp only [h1]
      by_cases h2 : c = ""
      · simp [h2]
      · simp [h2]
    · by_cases h2 : c = ""
      · simp [h1, h2]
      · simp [h1, h2]

end SeedLemmas

/-- Claim C5 (corrected): in `initial_grounding`, the entity indices
recorded for the mention with id `i + 1` are exactly the entities
passing the source's branch test: when the label is not the literal
string `"object"` and a nonempty color is given, both the label and the
color must occur among `{e.shape, e.color}`; otherwise a label occurring
among `{e.shape, e.color}`, or failing that a color occurring there,
matches alone.  In particular the wildcard label `"object"` receives no
special handling: a mention `{label: "object"}` with no color matches no
entity at all (for scenes whose shapes/colors are neither the literal
string "object" nor empty), rather than every entity. -/
theorem initialGrounding_matching (entities : List Entity)
    (ms : List ObjMention) (i : ℕ) (m : ObjMention) (hm : (i, m) ∈ ms.enum) :
    dgetD (initialGrounding (W := ℚ) entities ms).1 (i + 1) =
        (entities.filter fun e => mentionMatches m e).map (fun e => e.idx) ∧
      (∀ e : Entity, mentionMatches m e = true ↔ MatchesProp m e) ∧
      (∀ e : Entity, e.shape ≠ "object" → e.color ≠ "object" →
        e.shape ≠ "" → e.color ≠ "" → ¬ MatchesProp ⟨"object", none⟩ e) := by
  refine ⟨?_, fun e => mentionMatches_iff m e, ?_⟩
  · unfold initialGrounding
    rw [seedOuter_getD entities ms.enum _ i m hm
      (by rw [List.enum_map_fst]; exact List.nodup_range ms.length)]
    rfl
  · intro e hs hc hs2 hc2
    unfold MatchesProp
    simp [hs, hc, Ne.symm hs, Ne.symm hc, Ne.symm hs2, Ne.symm hc2]

/-- Witness for C5's theorem at a concrete scene and mention list. -/
theorem initialGrounding_matching_witness :
    ((0, (⟨"cube", none⟩ : ObjMention)) ∈ ([⟨"cube", none⟩] : List ObjMention).enum) ∧
      dgetD (initialGrounding (W := ℚ) [⟨0, "cube", "red"⟩] [⟨"cube", none⟩]).1 1 =
        (([⟨0, "cube", "red"⟩] : List Entity).filter
          fun e => mentionMatches ⟨"cube", none⟩ e).map fun e => e.idx := by
  refine ⟨by decide, ?_⟩
  exact (initialGrounding_matching [⟨0, "cube", "red"⟩] [⟨"cube", none⟩] 0
    ⟨"cube", none⟩ (by decide)).1

/-- The matching predicate claim C5 states, built from the claim's words
(label is wildcard or equals `e.shape`; a present color must equal
`e.color`) — a reference point, not a translation of the source. -/
def specMatches (m : ObjMention) (e : Entity) : Bool :=
  (m.label == "object" || m.label == e.shape) &&
    (match m.color with
    | some c => c == e.color
    | none => true)

/-- Counterexample to claim C5 as stated: the wildcard mention
`{label: "object"}` with no color should match every entity per the
claim, but `initial_grounding` records nothing for it (the grounded
dictionary stays empty): `"object"` is looked up in
`[e.shape, e.color]` like any other string and the color branch gets
the empty string. -/
theorem initialGrounding_wildcard_counterexample :
    specMatches ⟨"object", none⟩ ⟨0, "cube", "red"⟩ = true ∧
      (initialGrounding (W := ℚ) [⟨0, "cube", "red"⟩] [⟨"object", none⟩]).1 = [] := by
  decide

/-! ## The relation matcher -/

/-- The numeric operations the candidate machinery performs on scores,
abstracted over the weight type.  The program's instantiation is
`realOracle` below — the `ℝ`-valued functions of the source; the
control-flow claims hold for every instantiation, and concrete
executions in counterexamples use a rational instantiation so that the
(score-independent) control flow is kernel-evaluable. -/
structure ScoreOracle (W : Type) where
  score : V3 → Option ℕ → W
  normalize : List W → List W
  half : W → W
  angleLE0 : V3 → V3 → Bool

/-- `SpatialPredictor.cos_angle(vector_A, vector_B)`:
`np.dot(A, B) / (np.linalg.norm(A) * np.linalg.norm(B))`. -/
noncomputable def cosAngle (a b : V3) : ℝ :=
  ((dotV a b : ℚ) : ℝ) /
    (Real.sqrt ((dotV a a : ℚ) : ℝ) * Real.sqrt ((dotV b b : ℚ) : ℝ))

/-- `calculate_norm` applied to a list of already-computed real scores,
as in `_, norm_scores = self.calculate_norm(scores)`. -/
noncomputable def calculateNormR (v : List ℝ) : ℝ × List ℝ :=
  let mag := Real.sqrt ((v.map fun x => x * x).sum)
  (mag, v.map fun x => x / mag)

/-- The source's actual numeric operations (real-valued scores). -/
noncomputable def realOracle : ScoreOracle ℝ :=
  { score := fun v dim => scoreRelations v dim
    normalize := fun scores => (calculateNormR scores).2
    half := fun s => s / 2
    angleLE0 := fun a b => decide (cosAngle a b ≤ 0) }

/-- A rational oracle for concrete executions whose control flow never
consults scores. -/
def ratOracle : ScoreOracle ℚ :=
  { score := fun _ _ => 0
    normalize := fun scores => scores
    half := fun s => s
    angleLE0 := fun _ _ => true }

/-- The read-only context of one grounding call: camera and object
positions (`self.obj_locations = scene_info.all_locations`, also feeding
the offset table), the scene entities, and the score oracle. -/
structure Ctx (W : Type) where
  cam : V3
  positions : List V3
  entities : List Entity
  oracle : ScoreOracle W

/-- The raise sites of a grounding call:
`reduce()` of an empty sequence (TypeError, when no mention seeds),
a missing key in `relation_constraints`/`inverse_relations` (KeyError),
`candidates[o][0]` on an empty list (IndexError, in `decompose`),
`obj_locations[k]` out of range (IndexError, in `decompose`),
and an exception propagating out of `prune_tree`. -/
inductive GErr where
  | reduceEmpty
  | keyError
  | emptyCandidates
  | locIndex
  | prune (e : PruneErr)
  deriving DecidableEq, Repr

/-- The constraint test of `evaluate_pairs`:
`direction[dim] == sign and paired_obj not in self.true_nodes`. -/
def epCond (tn : List ℕ) (rc : ℕ × ℚ) (pr : ℕ × OffsetRec) : Bool :=
  pr.2.direction.nth rc.1 = rc.2 && !(tn.contains pr.1)

/-- The body of `evaluate_pairs`' loop over the offset pairs,
accumulating `(matched_objs, scores, matched, candidate_graph)`. -/
def epStep (ctx : Ctx W) (tn : List ℕ) (rc : ℕ × ℚ)
    (st : List ℕ × List W × Bool × Graph W) (pr : ℕ × OffsetRec) :
    List ℕ × List W × Bool × Graph W :=
  if epCond tn rc pr then
    (st.1 ++ [pr.1],
      st.2.1 ++ [ctx.oracle.score pr.2.xyzOffsets.absV (some rc.1)],
      true,
      addNode st.2.2.2 pr.1)
  else st

/-- `SpatialPredictor.evaluate_pairs(object1, relation_label)`: looks up
the `(dim, sign)` constraint (KeyError on an unknown label), filters
`get_obj_offsets(object1)` by the direction constraint and by
`paired_obj not in self.true_nodes`, adds each match as a node, scores
it from `abs(xyz_offsets)`, then L2-normalizes all scores and writes the
weighted edges `object1 → match`; returns the matches and whether any
matched. -/
def evaluatePairs (ctx : Ctx W) (tn : List ℕ) (G : Graph W) (object1 : ℕ)
    (label : RelLabel) : Except GErr ((List ℕ × Bool) × Graph W) :=
  match relationConstraints label with
  | none => .error .keyError
  | some rc =>
    let pairs := getObjOffsets ctx.cam ctx.positions object1
    let st := pairs.foldl (epStep ctx tn rc) ([], [], false, G)
    let normScores := ctx.oracle.normalize st.2.1
    let g2 := (st.1.zip normScores).foldl
      (fun g mw => addEdge g object1 mw.1 mw.2) st.2.2.2
    .ok ((st.1, st.2.2.1), g2)

section MatcherLemmas

lemma epFold_objs (ctx : Ctx W) (tn : List ℕ) (rc : ℕ × ℚ) :
    ∀ (pairs : List (ℕ × OffsetRec)) (st : List ℕ × List W × Bool × Graph W),
      (pairs.foldl (epStep ctx tn rc) st).1 =
        st.1 ++ (pairs.filter (epCond tn rc)).map fun pr => pr.1 := by
  intro pairs
  induction pairs with
  | nil => intro st; simp
  | cons pr pairs ih =>
    intro st
    rw [List.foldl_cons]
    by_cases hc : epCond tn rc pr
    · rw [ih, List.filter_cons, if_pos hc]
      unfold epStep
      rw [if_pos hc]
      simp
    · rw [ih, List.filter_cons, if_neg hc]
      unfold epStep
      rw [if_neg hc]

lemma epFold_flag (ctx : Ctx W) (tn : List ℕ) (rc : ℕ × ℚ) :
    ∀ (pairs : List (ℕ × OffsetRec)) (st : List ℕ × List W × Bool × Graph W),
      (pairs.foldl (epStep ctx tn rc) st).2.2.1 =
        (st.2.2.1 || !(pairs.filter (epCond tn rc)).isEmpty) := by
  intro pairs
  induction pairs with
  | nil => intro st; simp
  | cons pr pairs ih =>
    intro st
    rw [List.foldl_cons]
    by_cases hc : epCond tn rc pr
    · rw [ih, List.filter_cons, if_pos hc]
      unfold epStep
      rw [if_pos hc]
      simp
    · rw [ih, List.filter_cons, if_neg hc]
      unfold epStep
      rw [if_neg hc]

lemma compareAllPoints_mem_iff {cam : V3} {ps : List V3} {i j : ℕ} {r : OffsetRec} :
    ((i, j), r) ∈ compareAllPoints cam ps ↔
      i < ps.length ∧ j < ps.length ∧ i ≠ j ∧
        r = comparePoints cam (ps.getD i 0) (ps.getD j 0) := by
  constructor
  · exact compareAllPoints_mem
  · rintro ⟨hi, hj, hij, hr⟩
    unfold compareAllPoints
    rw [List.mem_flatMap]
    refine ⟨i, List.mem_range.mpr hi, ?_⟩
    rw [List.mem_filterMap]
    exact ⟨j, List.mem_range.mpr hj, by rw [if_neg hij, hr]⟩

lemma getObjOffsets_mem {cam : V3} {ps : List V3} {i j : ℕ} {r : OffsetRec} :
    (j, r) ∈ getObjOffsets cam ps i ↔
      i < ps.length ∧ j < ps.length ∧ j ≠ i ∧
        r = comparePoints cam (ps.getD i 0) (ps.getD j 0) := by
  unfold getObjOffsets
  rw [List.mem_filterMap]
  constructor
  · rintro ⟨e, he, heq⟩
    by_cases hei : e.1.1 = i
    · rw [if_pos hei] at heq
      rcases e with ⟨⟨i', j'⟩, r'⟩
      simp only at hei heq
      cases heq
      subst hei
      obtain ⟨hi, hj, hij, hr⟩ := compareAllPoints_mem he
      exact ⟨hi, hj, Ne.symm hij, hr⟩
    · rw [if_neg hei] at heq
      exact absurd heq (by simp)
  · rintro ⟨hi, hj, hij, hr⟩
    exact ⟨((i, j), r), compareAllPoints_mem_iff.mpr ⟨hi, hj, Ne.symm hij, hr⟩,
      by rw [if_pos rfl]⟩

lemma epCond_iff (tn : List ℕ) (rc : ℕ × ℚ) (j : ℕ) (r : OffsetRec) :
    epCond tn rc (j, r) = true ↔ (r.direction.nth rc.1 = rc.2 ∧ j ∉ tn) := by
  unfold epCond
  simp

end MatcherLemmas

/-- Claim C3 (confirmed): the matches returned by
`evaluate_pairs(i, label)` are exactly the scene entities `j ≠ i` whose
offset record `(i, j)` has `direction[axis] == sign` for the label's
constraint — left: axis `1` sign `+1`, right: axis `1` sign `-1`,
front: axis `0` sign `-1`, behind: axis `0` sign `+1` — and that are
not true-grounded nodes; the returned flag is true iff the match set is
nonempty. -/
theorem evaluatePairs_matched_set (ctx : Ctx W) (tn : List ℕ) (G : Graph W)
    (i : ℕ) (hi : i < ctx.positions.length) (label : RelLabel) (rc : ℕ × ℚ)
    (hl : relationConstraints label = some rc)
    (res : (List ℕ × Bool) × Graph W)
    (h : evaluatePairs ctx tn G i label = .ok res) :
    (∀ j, j ∈ res.1.1 ↔ (j < ctx.positions.length ∧ j ≠ i ∧
        (comparePoints ctx.cam (ctx.positions.getD i 0)
          (ctx.positions.getD j 0)).direction.nth rc.1 = rc.2 ∧
        j ∉ tn)) ∧
      res.1.2 = !res.1.1.isEmpty ∧
      relationConstraints .left = some (1, 1) ∧
      relationConstraints .right = some (1, -1) ∧
      relationConstraints .front = some (0, -1) ∧
      relationConstraints .behind = some (0, 1) := by
  unfold evaluatePairs at h
  rw [hl] at h
  simp only [Except.ok.injEq] at h
  have h1 : res.1.1 = ((getObjOffsets ctx.cam ctx.positions i).filter
      (epCond tn rc)).map fun pr => pr.1 := by
    rw [← h]
    simp only
    rw [epFold_objs]
    simp
  have h2 : res.1.2 = !res.1.1.isEmpty := by
    rw [h1, ← h]
    simp only
    rw [epFold_flag]
    simp only [Bool.false_or, List.isEmpty_iff, List.map_eq_nil_iff]
    rcases hf : (getObjOffsets ctx.cam ctx.positions i).filter (epCond tn rc) with _ | _
    · simp
    · simp
  refine ⟨?_, h2, rfl, rfl, rfl, rfl⟩
  intro j
  rw [h1]
  constructor
  · intro hj
    rw [List.mem_map] at hj
    obtain ⟨pr, hpr, hj1⟩ := hj
    rw [List.mem_filter] at hpr
    rcases pr with ⟨j', r⟩
    simp only at hj1
    obtain ⟨-, hjlt, hjne, hr⟩ := getObjOffsets_mem.mp hpr.1
    obtain ⟨hd, htn⟩ := (epCond_iff tn rc j' r).mp hpr.2
    rw [← hj1]
    exact ⟨hjlt, hjne, by rw [← hr]; exact hd, htn⟩
  · rintro ⟨hjlt, hjne, hd, htn⟩
    rw [List.mem_map]
    refine ⟨(j, comparePoints ctx.cam (ctx.positions.getD i 0)
      (ctx.positions.getD j 0)), ?_, rfl⟩
    rw [List.mem_filter]
    exact ⟨getObjOffsets_mem.mpr ⟨hi, hjlt, hjne, rfl⟩,
      (epCond_iff tn rc j _).mpr ⟨hd, htn⟩⟩

/-- A two-object scene for exercising the matcher concretely. -/
def epWitCtx : Ctx ℚ := ⟨⟨7, -7, 5⟩, [⟨0, 0, 0⟩, ⟨1, 2, 0⟩], [], ratOracle⟩

/-- The matcher's output on `epWitCtx` for anchor `0`, label `left`. -/
def epWitRes : (List ℕ × Bool) × Graph ℚ := (([1], true), ⟨[1, 0], [(0, 1, 0)]⟩)

/-- Witness for C3's theorem at a concrete scene. -/
theorem evaluatePairs_matched_set_witness :
    (0 < epWitCtx.positions.length) ∧
      evaluatePairs epWitCtx [] ⟨[], []⟩ 0 .left = .ok epWitRes ∧
      epWitRes.1.2 = !epWitRes.1.1.isEmpty := by
  have hi : 0 < epWitCtx.positions.length := by
    simp [epWitCtx]
  have h : evaluatePairs epWitCtx [] ⟨[], []⟩ 0 .left = .ok epWitRes := by
    norm_num [evaluatePairs, getObjOffsets, compareAllPoints, epWitCtx, epWitRes,
      List.range_succ, epStep, epCond, comparePoints, signV, sgn, addNode, addEdge,
      V3.nth, ratOracle, relationConstraints, List.filterMap_cons, List.foldl_cons,
      List.foldl_nil, List.getD, List.zip]
  exact ⟨hi, h,
    (evaluatePairs_matched_set epWitCtx [] ⟨[], []⟩ 0 hi .left (1, 1) rfl
      epWitRes h).2.1⟩

/-! ## Propagation: match_candidates, decompose, and the relate loop -/

/-- The mutable state of one grounding call: the candidates dictionary
(`self.candidates`, aliasing `self.grounded`) and the candidate graph. -/
structure GState (W : Type) where
  candidates : DMap
  graph : Graph W
  deriving DecidableEq, Repr

/-- `SpatialPredictor.match_candidates(o1, o2, relation_label)`: for
each current candidate entity of `o1`, run `evaluate_pairs`; on a match,
set `candidates[o2]` to the union of its current value and the matched
entities.  The initial `self.candidates[o1]` subscript is a defaultdict
access (inserting `[]` when the key is missing; the callers always pass
an existing key). -/
def matchCandidates (ctx : Ctx W) (tn : List ℕ) (o1 o2 : ℕ)
    (label : RelLabel) (st : GState W) : Except GErr (GState W) :=
  let p := dget st.candidates o1
  p.1.foldlM
    (fun (st' : GState W) obj => do
      let r ← evaluatePairs ctx tn st'.graph obj label
      if r.1.2 then
        pure ⟨dset st'.candidates o2 (listUnion (dgetD st'.candidates o2) r.1.1),
          r.2⟩
      else
        pure ⟨st'.candidates, r.2⟩)
    ⟨p.2, st.graph⟩

/-- `candidates[o][0]` — IndexError on an empty list. -/
def headE (l : List ℕ) : Except GErr ℕ :=
  match l with
  | [] => .error .emptyCandidates
  | x :: _ => .ok x

/-- `self.obj_locations[k]` — IndexError when out of range. -/
def getLoc (ps : List V3) (k : ℕ) : Except GErr V3 :=
  if h : k < ps.length then .ok (ps.get ⟨k, h⟩) else .error .locIndex

/-- `SpatialPredictor.euclidean_distance(p3, p1, p2)`: the VECTOR from
the midpoint of `p1`/`p2` to `p3` (despite its name). -/
def euclideanDistance (p3 p1 p2 : V3) : V3 :=
  p3 - (p1 + p2).divQ 2

/-- The per-candidate body of `decompose`'s loop.  Note the source
indexes `self.obj_locations` with the MENTION ids `o2`/`o3` here
(`o2_loc`, `o3_loc`), not with the anchor entity indices
`o2_idx`/`o3_idx` it just computed — the bug settled by claim C7; the
location lookups happen before the angle test, so an out-of-range
mention id raises regardless of the geometry. -/
def decomposeStep (ctx : Ctx W) (o1 o2 o3 o2idx o3idx : ℕ)
    (o2offs o3offs : List (ℕ × OffsetRec)) (st : GState W) (c : ℕ) :
    Except GErr (GState W) := do
  match (o2offs.find? fun p => p.1 = c), (o3offs.find? fun p => p.1 = c) with
  | some off1, some off2 => do
    let vector1 := off1.2.direction
    let vector2 := off2.2.direction
    let targetLoc ← getLoc ctx.positions c
    let o2loc ← getLoc ctx.positions o2
    let o3loc ← getLoc ctx.positions o3
    if ctx.oracle.angleLE0 vector1 vector2 then
      let dmid := euclideanDistance targetLoc o2loc o3loc
      let score := ctx.oracle.score dmid none
      let next :=
        (if c ∈ st.graph.nodes then (st.candidates, st.graph)
        else (dset st.candidates o1 (dgetD st.candidates o1 ++ [c]),
          addNode st.graph c))
      let g2 := addEdge (addEdge next.2 o2idx c (ctx.oracle.half score))
        o3idx c (ctx.oracle.half score)
      pure ⟨next.1, g2⟩
    else
      pure st
  | _, _ => pure st

/-- `SpatialPredictor.decompose(relation)`: a ternary relation is
decomposable iff both `o2` and `o3` have candidate entries; the anchors
are the FIRST candidates `candidates[o2][0]`, `candidates[o3][0]`
(IndexError if a stored list is empty), and every entity appearing in
both anchors' offset tables is tested by `cos_angle ≤ 0` and, when
accepted, linked from both anchors with half the midpoint-distance
score.  (The source's `r1`/`r2` "opposing" pseudo-relation dicts are
dead code and omitted; the `o3`-less case cannot occur since `relate`
only calls `decompose` when `"o3" in relation`.) -/
def decompose (ctx : Ctx W) (rel : RelMention) (st : GState W) :
    Except GErr (Bool × GState W) :=
  match rel.o3 with
  | none => .ok (false, st)
  | some o3 =>
    if dhasKey st.candidates rel.o2 && dhasKey st.candidates o3 then do
      let o2idx ← headE (dgetD st.candidates rel.o2)
      let o3idx ← headE (dgetD st.candidates o3)
      let o2offs := getObjOffsets ctx.cam ctx.positions o2idx
      let o3offs := getObjOffsets ctx.cam ctx.positions o3idx
      let common := (o2offs.map fun p => p.1).filter
        fun c => (o3offs.map fun p => p.1).contains c
      let st' ← common.foldlM
        (decomposeStep ctx rel.o1 rel.o2 o3 o2idx o3idx o2offs o3offs) st
      pure (true, st')
    else
      .ok (false, st)

/-- One relation of the round's `for relation in relations:` loop,
threading the deferred list and the state. -/
def relStep (ctx : Ctx W) (tn : List ℕ)
    (acc : List RelMention × GState W) (rel : RelMention) :
    Except GErr (List RelMention × GState W) := do
  let o1Exists := dhasKey acc.2.candidates rel.o1
  let o2Exists := dhasKey acc.2.candidates rel.o2
  match rel.o3 with
  | some _ => do
    let r ← decompose ctx rel acc.2
    if r.1 then pure (acc.1, r.2) else pure (acc.1 ++ [rel], r.2)
  | none =>
    -- `elif not o1_exists or o2 in true_groundings:`
    -- `true_groundings = self.grounded.keys()` is a live view of the very
    -- dict later aliased by `self.candidates` (line 110 binds the object,
    -- not a copy), so by the time the loop runs the test is key membership
    -- in the current candidates dict — i.e. `o2Exists`.
    if !o1Exists || o2Exists then
      if o2Exists then
        match inverseRelations rel.label with
        | none => throw .keyError
        | some lbl => do
          let st' ← matchCandidates ctx tn rel.o2 rel.o1 lbl acc.2
          pure (acc.1, st')
      else
        pure (acc.1 ++ [rel], acc.2)
    else do
      let st' ← matchCandidates ctx tn rel.o1 rel.o2 rel.label acc.2
      pure (acc.1, st')

/-- One full pass over the current relation worklist, returning the
deferred relations (`ug_relations`) and the updated state. -/
def oneRound (ctx : Ctx W) (tn : List ℕ) (rels : List RelMention)
    (st : GState W) : Except GErr (List RelMention × GState W) :=
  rels.foldlM (relStep ctx tn) ([], st)

/-- The `while relations:` loop of `relate`: each iteration processes
the worklist, reassigns `relations = ug_relations`, and calls
`prune_tree` (whose graph mutation and ranking are carried along; its
exceptions propagate).  The source has NO termination safeguard — a
round that defers every relation reproduces the same worklist forever —
so the translation takes explicit fuel and returns `none` when the fuel
is exhausted with a nonempty worklist. -/
def relateLoop [LinearOrder W] [AddCommMonoid W] (ctx : Ctx W) (tn : List ℕ) :
    ℕ → List RelMention → GState W → Option (PruneOut W) →
    Except GErr (Option (GState W × Option (PruneOut W)))
  | fuel, rels, st, lastPrune =>
    if rels.isEmpty then .ok (some (st, lastPrune))
    else
      match fuel with
      | 0 => .ok none
      | fuel' + 1 => do
        let r ← oneRound ctx tn rels st
        match pruneTree r.2.graph with
        | .error e => throw (.prune e)
        | .ok pr => relateLoop ctx tn fuel' r.1 ⟨r.2.candidates, pr.graph⟩ (some pr)

/-- `SpatialPredictor.relate(mentions)`: seed with `initial_grounding`;
`true_nodes = reduce(set.union, (set(lst) for lst in
self.grounded.values()))` raises TypeError when nothing was grounded;
then run the propagation loop.  The final value carries the state and
the last pruning result (`best_object` / `ranked_predictions`). -/
def relate [LinearOrder W] [AddCommMonoid W] (ctx : Ctx W) (ms : Mentions)
    (fuel : ℕ) : Except GErr (Option (GState W × Option (PruneOut W))) :=
  let seeded := initialGrounding (W := W) ctx.entities ms.objects
  if seeded.1.isEmpty then .error .reduceEmpty
  else
    let trueNodes := seeded.1.foldl (fun acc p => listUnion acc p.2) []
    relateLoop ctx trueNodes fuel ms.relations ⟨seeded.1, seeded.2⟩ none

section LoopLemmas

lemma relateLoop_no_progress [LinearOrder W] [AddCommMonoid W] (ctx : Ctx W)
    (tn : List ℕ) (rels : List RelMention) (st : GState W) (pr : PruneOut W)
    (hne : rels ≠ [])
    (hstep : oneRound ctx tn rels st = .ok (rels, st))
    (hprune : pruneTree st.graph = .ok pr) (hpg : pr.graph = st.graph) :
    ∀ (fuel : ℕ) (lp : Option (PruneOut W)),
      relateLoop ctx tn fuel rels st lp = .ok none := by
  intro fuel
  induction fuel with
  | zero =>
    intro lp
    unfold relateLoop
    rw [if_neg (by simpa using hne)]
  | succ f ih =>
    intro lp
    unfold relateLoop
    rw [if_neg (by simpa using hne)]
    show (oneRound ctx tn rels st).bind _ = _
    rw [hstep]
    show (match pruneTree st.graph with
      | .error e => throw (GErr.prune e)
      | .ok pr => relateLoop ctx tn f rels ⟨st.candidates, pr.graph⟩ (some pr)) = _
    rw [hprune]
    show relateLoop ctx tn f rels ⟨st.candidates, pr.graph⟩ (some pr) = _
    rw [hpg]
    exact ih (some pr)

end LoopLemmas

/-- Claim C2 (corrected): the propagation loop of `relate` has NO
no-progress check and no UnresolvableRelation outcome —
`while relations:` stops only when the worklist empties.  Whenever a
round resolves none of the deferred relation-mentions (returning the
same worklist and state, with pruning leaving the graph unchanged), the
next round starts from identical conditions, so the loop never
terminates: every finite iteration bound `fuel` is exhausted. -/
theorem relate_no_progress_diverges [LinearOrder W] [AddCommMonoid W]
    (ctx : Ctx W) (tn : List ℕ) (rels : List RelMention) (st : GState W)
    (pr : PruneOut W) (hne : rels ≠ [])
    (hstep : oneRound ctx tn rels st = .ok (rels, st))
    (hprune : pruneTree st.graph = .ok pr) (hpg : pr.graph = st.graph)
    (fuel : ℕ) (lp : Option (PruneOut W)) :
    relateLoop ctx tn fuel rels st lp = .ok none :=
  relateLoop_no_progress ctx tn rels st pr hne hstep hprune hpg fuel lp

/-- A one-entity scene; mention 1 seeds to entity 0, mentions 2 and 3
match nothing. -/
def loopCtx : Ctx ℚ := ⟨⟨7, -7, 5⟩, [⟨0, 0, 0⟩], [⟨0, "cube", "red"⟩], ratOracle⟩

/-- `{objects: [cube, sphere, sphere], relations: [(2 left 3)]}` — the
relation links two mentions that never acquire candidates. -/
def loopMs : Mentions :=
  ⟨[⟨"cube", none⟩, ⟨"sphere", none⟩, ⟨"sphere", none⟩], [⟨2, 3, none, .left⟩]⟩

/-- The state after seeding `loopMs` on `loopCtx`. -/
def loopSt : GState ℚ := ⟨[(1, [0])], ⟨[0], []⟩⟩

/-- What `prune_tree` returns on `loopSt`'s single-node graph. -/
def loopPr : PruneOut ℚ := ⟨⟨[0], []⟩, [(0, 0)], (0, 0)⟩

/-- Witness for C2's theorem: on `loopCtx`/`loopSt` the round defers its
only relation, pruning fixes the graph, and the loop diverges. -/
theorem relate_no_progress_diverges_witness :
    ([(⟨2, 3, none, .left⟩ : RelMention)] ≠ []) ∧
      oneRound loopCtx [0] [⟨2, 3, none, .left⟩] loopSt =
        .ok ([⟨2, 3, none, .left⟩], loopSt) ∧
      pruneTree loopSt.graph = .ok loopPr ∧ loopPr.graph = loopSt.graph ∧
      relateLoop loopCtx [0] 100 [⟨2, 3, none, .left⟩] loopSt none = .ok none := by
  have h1 : ([(⟨2, 3, none, .left⟩ : RelMention)] ≠ []) := by decide
  have h2 : oneRound loopCtx [0] [⟨2, 3, none, .left⟩] loopSt =
      .ok ([⟨2, 3, none, .left⟩], loopSt) := by decide
  have h3 : pruneTree loopSt.graph = .ok loopPr := by decide
  have h4 : loopPr.graph = loopSt.graph := by decide
  exact ⟨h1, h2, h3, h4,
    relate_no_progress_diverges loopCtx [0] _ loopSt loopPr h1 h2 h3 h4 100 none⟩

/-- Counterexample to claim C2 as stated: a full `relate` call on a
well-formed input — one seeded mention, one relation between two
mentions that never acquire candidates — makes no progress in any
round, and the loop spins until any iteration bound (here 100 rounds)
is exhausted; nothing stops it and nothing is reported as
UnresolvableRelation (no such outcome exists in the source). -/
theorem relate_no_progress_counterexample :
    loopMs.relations ≠ [] ∧ relate loopCtx loopMs 100 = .ok none := by
  refine ⟨by decide, ?_⟩
  have h2 : oneRound loopCtx [0] [⟨2, 3, none, .left⟩] loopSt =
      .ok ([⟨2, 3, none, .left⟩], loopSt) := by decide
  have h3 : pruneTree loopSt.graph = .ok loopPr := by decide
  have hseed : initialGrounding (W := ℚ) loopCtx.entities loopMs.objects =
      ([(1, [0])], ⟨[0], []⟩) := by decide
  unfold relate
  rw [hseed]
  show relateLoop loopCtx _ 100 loopMs.relations ⟨[(1, [0])], ⟨[0], []⟩⟩ none = _
  exact relateLoop_no_progress loopCtx _ _ loopSt loopPr (by decide) h2 h3 (by decide)
    100 none

/-- Claim C6 (corrected): `relate` is NOT crash-free.  When no object
mention matches any entity, `true_nodes = reduce(set.union, ...)` is a
reduce over an empty sequence and raises TypeError before the loop
starts (the locally collected `ungrounded` list is discarded, not
recorded); and `prune_tree` on an empty candidate graph raises
ValueError (`max()` of an empty dict).  No `NoGroundingFound` outcome
exists anywhere in the source. -/
theorem relate_crash_amended [LinearOrder W] [AddCommMonoid W] (ctx : Ctx W)
    (ms : Mentions) (fuel : ℕ)
    (h : (initialGrounding (W := W) ctx.entities ms.objects).1 = []) :
    relate ctx ms fuel = .error .reduceEmpty ∧
      pruneTree (⟨[], []⟩ : Graph W) = .error .emptyMax := by
  constructor
  · unfold relate
    simp [h]
  · rfl

/-- A mention list whose single object mention matches nothing. -/
def crashMs : Mentions := ⟨[⟨"sphere", none⟩], []⟩

/-- Witness for C6's theorem at a concrete input. -/
theorem relate_crash_amended_witness :
    (initialGrounding (W := ℚ) loopCtx.entities crashMs.objects).1 = [] ∧
      relate loopCtx crashMs 3 = .error .reduceEmpty ∧
      pruneTree (⟨[], []⟩ : Graph ℚ) = .error .emptyMax := by
  have h : (initialGrounding (W := ℚ) loopCtx.entities crashMs.objects).1 = [] := by
    decide
  have h2 := relate_crash_amended loopCtx crashMs 3 h
  exact ⟨h, h2.1, h2.2⟩

/-- Counterexample to claim C6 as stated: this well-formed
(scene, mentions) input — one cube entity, one mention asking for a
sphere — does not run to completion with the mention recorded as
ungrounded; `relate` raises before its loop begins, and no
NoGroundingFound outcome is produced here or anywhere else. -/
theorem relate_crash_counterexample :
    relate loopCtx crashMs 3 = .error .reduceEmpty := by
  decide

/-- The end-to-end spec scene (three entities) for exercising
`decompose`.  Mention ids ground 1-to-1: `1 ↦ entity 0`, `2 ↦ entity 1`,
`3 ↦ entity 2`. -/
def decCtx : Ctx ℚ :=
  ⟨⟨7, -7, 5⟩, [⟨0, 0, 0⟩, ⟨2, 0, 0⟩, ⟨0, 2, 0⟩],
    [⟨0, "cube", "red"⟩, ⟨1, "sphere", "blue"⟩, ⟨2, "cylinder", "green"⟩],
    ratOracle⟩

/-- Grounded state for `decCtx`: all three mentions seeded. -/
def decSt : GState ℚ := ⟨[(1, [0]), (2, [1]), (3, [2])], ⟨[0, 1, 2], []⟩⟩

/-- Claim C7 (code bug): evaluating `decompose` at the failing input.
The ternary relation `between(o1=1, o2=2, o3=3)` is decomposable — both
`o2` and `o3` have candidates, with anchor entities `o2_idx = 1`,
`o3_idx = 2` — but the midpoint computation reads
`self.obj_locations[o2]` and `self.obj_locations[o3]` with the MENTION
ids `2` and `3` instead of the anchor entity indices it just computed,
so with three scene objects `obj_locations[3]` raises IndexError (and
with more objects it would silently use the wrong entities'
positions). -/
theorem decompose_mention_id_location_bug :
    dhasKey decSt.candidates 2 = true ∧ dhasKey decSt.candidates 3 = true ∧
      dgetD decSt.candidates 2 = [1] ∧ dgetD decSt.candidates 3 = [2] ∧
      decCtx.positions.length = 3 ∧
      decompose decCtx ⟨1, 2, some 3, .between⟩ decSt = .error .locIndex := by
  decide

section InvariantLemmas

lemma except_bind_ok {α β : Type} (a : α) (f : α → Except GErr β) :
    ((Except.ok a : Except GErr α) >>= f) = f a := rfl

lemma except_bind_error {α β : Type} (e : GErr) (f : α → Except GErr β) :
    ((Except.error e : Except GErr α) >>= f) = .error e := rfl

lemma foldlM_preserve {σ α : Type} (P : σ → Prop) (f : σ → α → Except GErr σ)
    (hf : ∀ s a s', f s a = .ok s' → P s → P s') :
    ∀ (l : List α) (s s' : σ), l.foldlM f s = .ok s' → P s → P s' := by
  intro l
  induction l with
  | nil =>
    intro s s' h hp
    rw [List.foldlM_nil] at h
    cases h
    exact hp
  | cons a l ih =>
    intro s s' h hp
    rw [List.foldlM_cons] at h
    rcases ha : f s a with e | t
    · rw [ha, except_bind_error] at h
      exact absurd h (by simp)
    · rw [ha, except_bind_ok] at h
      exact ih t s' h (hf s a t ha hp)

lemma foldlM_error_kind {σ α : Type} (f : σ → α → Except GErr σ)
    (hf : ∀ s a e, f s a = .error e → e = .locIndex) :
    ∀ (l : List α) (s : σ) (e : GErr), l.foldlM f s = .error e → e = .locIndex := by
  intro l
  induction l with
  | nil =>
    intro s e h
    rw [List.foldlM_nil] at h
    exact absurd h (by simp [pure, Except.pure])
  | cons a l ih =>
    intro s e h
    rw [List.foldlM_cons] at h
    rcases ha : f s a with e' | t
    · rw [ha, except_bind_error] at h
      cases h
      exact hf s a _ ha
    · rw [ha, except_bind_ok] at h
      exact ih t e h

lemma getLoc_error {ps : List V3} {k : ℕ} {e : GErr}
    (h : getLoc ps k = .error e) : e = .locIndex := by
  unfold getLoc at h
  split at h
  · exact absurd h (by simp)
  · cases h
    rfl

lemma getLoc_cases (ps : List V3) (k : ℕ) :
    (∃ v, getLoc ps k = .ok v) ∨ getLoc ps k = .error .locIndex := by
  unfold getLoc
  split
  · exact Or.inl ⟨_, rfl⟩
  · exact Or.inr rfl

lemma decomposeStep_error (ctx : Ctx W) (o1 o2 o3 o2idx o3idx : ℕ)
    (o2offs o3offs : List (ℕ × OffsetRec)) (st : GState W) (c : ℕ) (e : GErr)
    (h : decomposeStep ctx o1 o2 o3 o2idx o3idx o2offs o3offs st c = .error e) :
    e = .locIndex := by
  unfold decomposeStep at h
  rcases h1 : o2offs.find? fun p => p.1 = c with _ | off1 <;>
    rcases h2 : o3offs.find? fun p => p.1 = c with _ | off2 <;>
    rw [h1, h2] at h <;> simp only at h
  · exact absurd h (by simp [pure, Except.pure])
  · exact absurd h (by simp [pure, Except.pure])
  · exact absurd h (by simp [pure, Except.pure])
  · rcases getLoc_cases ctx.positions c with ⟨v1, hv1⟩ | hv1 <;> rw [hv1] at h
    · rw [except_bind_ok] at h
      rcases getLoc_cases ctx.positions o2 with ⟨v2, hv2⟩ | hv2 <;> rw [hv2] at h
      · rw [except_bind_ok] at h
        rcases getLoc_cases ctx.positions o3 with ⟨v3, hv3⟩ | hv3 <;> rw [hv3] at h
        · rw [except_bind_ok] at h
          split at h
          · exact absurd h (by simp [pure, Except.pure])
          · exact absurd h (by simp [pure, Except.pure])
        · rw [except_bind_error] at h
          cases h
          rfl
      · rw [except_bind_error] at h
        cases h
        rfl
    · rw [except_bind_error] at h
      cases h
      rfl

lemma CandsWF_decomposeStep (ctx : Ctx W) (o1 o2 o3 o2idx o3idx : ℕ)
    (o2offs o3offs : List (ℕ × OffsetRec)) (st st' : GState W) (c : ℕ)
    (h : decomposeStep ctx o1 o2 o3 o2idx o3idx o2offs o3offs st c = .ok st')
    (hp : CandsWF st.candidates) : CandsWF st'.candidates := by
  unfold decomposeStep at h
  rcases h1 : o2offs.find? fun p => p.1 = c with _ | off1 <;>
    rcases h2 : o3offs.find? fun p => p.1 = c with _ | off2 <;>
    rw [h1, h2] at h <;> simp only at h
  · cases h; exact hp
  · cases h; exact hp
  · cases h; exact hp
  · rcases getLoc_cases ctx.positions c with ⟨v1, hv1⟩ | hv1 <;> rw [hv1] at h
    · rw [except_bind_ok] at h
      rcases getLoc_cases ctx.positions o2 with ⟨v2, hv2⟩ | hv2 <;> rw [hv2] at h
      · rw [except_bind_ok] at h
        rcases getLoc_cases ctx.positions o3 with ⟨v3, hv3⟩ | hv3 <;> rw [hv3] at h
        · rw [except_bind_ok] at h
          split at h
          · simp only [pure, Except.pure, Except.ok.injEq] at h
            rw [← h]
            simp only
            split
            · exact hp
            · exact CandsWF_dset hp (by simp)
          · simp only [pure, Except.pure, Except.ok.injEq] at h
            rw [← h]
            exact hp
        · rw [except_bind_error] at h
          exact absurd h (by simp)
      · rw [except_bind_error] at h
        exact absurd h (by simp)
    · rw [except_bind_error] at h
      exact absurd h (by simp)

lemma dhasKey_dfind {m : DMap} {k : ℕ} (h : dhasKey m k = true) :
    ∃ v, dfind m k = some v := by
  unfold dhasKey at h
  rw [List.any_eq_true] at h
  obtain ⟨p, hp, hpk⟩ := h
  rcases hf : m.find? (fun p => p.1 = k) with _ | q
  · exfalso
    have := List.find?_eq_none.mp hf p hp
    simp at this hpk
    exact this hpk
  · refine ⟨q.2, ?_⟩
    unfold dfind
    rw [hf]
    rfl

lemma dget_of_hasKey {m : DMap} {k : ℕ} (h : dhasKey m k = true) :
    dget m k = (dgetD m k, m) := by
  obtain ⟨v, hv⟩ := dhasKey_dfind h
  unfold dget dgetD
  rw [hv]

lemma CandsWF_decompose (ctx : Ctx W) (rel : RelMention) (st : GState W)
    (b : Bool) (st' : GState W) (h : decompose ctx rel st = .ok (b, st'))
    (hp : CandsWF st.candidates) : CandsWF st'.candidates := by
  obtain ⟨ro1, ro2, ro3, rlabel⟩ := rel
  rcases ro3 with _ | o3
  · simp only [decompose] at h
    cases h
    exact hp
  · simp only [decompose] at h
    split at h
    · rcases hh2 : headE (dgetD st.candidates ro2) with e | o2idx <;>
        rw [hh2] at h
      · rw [except_bind_error] at h
        exact absurd h (by simp)
      · rw [except_bind_ok] at h
        rcases hh3 : headE (dgetD st.candidates o3) with e | o3idx <;>
          rw [hh3] at h
        · rw [except_bind_error] at h
          exact absurd h (by simp)
        · rw [except_bind_ok] at h
          rcases hfold : List.foldlM
              (decomposeStep ctx ro1 ro2 o3 o2idx o3idx
                (getObjOffsets ctx.cam ctx.positions o2idx)
                (getObjOffsets ctx.cam ctx.positions o3idx))
              st
              (((getObjOffsets ctx.cam ctx.positions o2idx).map fun p => p.1).filter
                fun c =>
                  (((getObjOffsets ctx.cam ctx.positions o3idx).map fun p => p.1).contains
                    c)) with e | stf <;> rw [hfold] at h
          · rw [except_bind_error] at h
            exact absurd h (by simp)
          · rw [except_bind_ok] at h
            simp only [pure, Except.pure, Except.ok.injEq, Prod.mk.injEq] at h
            rw [← h.2]
            exact foldlM_preserve (fun s => CandsWF s.candidates) _
              (fun s a s' hstep hps =>
                CandsWF_decomposeStep ctx ro1 ro2 o3 o2idx o3idx _ _ s s' a
                  hstep hps)
              _ st stf hfold hp
    · cases h
      exact hp

lemma decompose_no_emptyCandidates (ctx : Ctx W) (rel : RelMention)
    (st : GState W) (hp : CandsWF st.candidates) :
    decompose ctx rel st ≠ .error .emptyCandidates := by
  obtain ⟨ro1, ro2, ro3, rlabel⟩ := rel
  rcases ro3 with _ | o3
  · simp [decompose]
  · simp only [decompose]
    split
    · rename_i hkeys
      rw [Bool.and_eq_true] at hkeys
      have h2 : dgetD st.candidates ro2 ≠ [] := CandsWF_dgetD hp hkeys.1
      have h3 : dgetD st.candidates o3 ≠ [] := CandsWF_dgetD hp hkeys.2
      rcases hg2 : dgetD st.candidates ro2 with _ | ⟨x2, l2⟩
      · exact absurd hg2 h2
      · rcases hg3 : dgetD st.candidates o3 with _ | ⟨x3, l3⟩
        · exact absurd hg3 h3
        · rw [show headE (x2 :: l2) = .ok x2 from rfl, except_bind_ok,
            show headE (x3 :: l3) = .ok x3 from rfl, except_bind_ok]
          rcases hfold : List.foldlM
              (decomposeStep ctx ro1 ro2 o3 x2 x3
                (getObjOffsets ctx.cam ctx.positions x2)
                (getObjOffsets ctx.cam ctx.positions x3))
              st
              (((getObjOffsets ctx.cam ctx.positions x2).map fun p => p.1).filter
                fun c =>
                  (((getObjOffsets ctx.cam ctx.positions x3).map fun p => p.1).contains
                    c)) with e | stf <;> rw [hfold]
          · rw [except_bind_error]
            have : e = .locIndex := foldlM_error_kind _
              (fun s a e' hstep =>
                decomposeStep_error ctx ro1 ro2 o3 x2 x3 _ _ s a e' hstep)
              _ st e hfold
            rw [this]
            simp
          · rw [except_bind_ok]
            simp [pure, Except.pure]
    · simp

lemma evaluatePairs_ok_flag (ctx : Ctx W) (tn : List ℕ) (G : Graph W)
    (i : ℕ) (label : RelLabel) (res : (List ℕ × Bool) × Graph W)
    (h : evaluatePairs ctx tn G i label = .ok res) :
    res.1.2 = true → res.1.1 ≠ [] := by
  unfold evaluatePairs at h
  rcases hl : relationConstraints label with _ | rc <;> rw [hl] at h
  · exact absurd h (by simp)
  · simp only [Except.ok.injEq] at h
    intro hflag
    rw [← h] at hflag ⊢
    simp only at hflag ⊢
    rw [epFold_flag] at hflag
    rw [epFold_objs]
    simp only [Bool.false_or] at hflag
    intro hc
    rw [List.nil_append, List.map_eq_nil_iff] at hc
    rw [hc] at hflag
    simp at hflag

lemma CandsWF_matchCandidates (ctx : Ctx W) (tn : List ℕ) (o1 o2 : ℕ)
    (label : RelLabel) (st st' : GState W)
    (hk : dhasKey st.candidates o1 = true)
    (h : matchCandidates ctx tn o1 o2 label st = .ok st')
    (hp : CandsWF st.candidates) : CandsWF st'.candidates := by
  unfold matchCandidates at h
  rw [dget_of_hasKey hk] at h
  refine foldlM_preserve (fun s => CandsWF s.candidates) _ ?_ _ _ _ h hp
  intro s obj s' hstep hps
  rcases he : evaluatePairs ctx tn s.graph obj label with e | r <;> rw [he] at hstep
  · rw [except_bind_error] at hstep
    exact absurd hstep (by simp)
  · rw [except_bind_ok] at hstep
    by_cases hflag : r.1.2 = true
    · rw [if_pos hflag] at hstep
      simp only [pure, Except.pure, Except.ok.injEq] at hstep
      rw [← hstep]
      exact CandsWF_dset hps
        (listUnion_ne_nil_right (evaluatePairs_ok_flag ctx tn s.graph obj label r he hflag))
    · rw [if_neg hflag] at hstep
      simp only [pure, Except.pure, Except.ok.injEq] at hstep
      rw [← hstep]
      exact hps

lemma CandsWF_relStep (ctx : Ctx W) (tn : List ℕ)
    (acc : List RelMention × GState W) (rel : RelMention)
    (acc' : List RelMention × GState W)
    (h : relStep ctx tn acc rel = .ok acc')
    (hp : CandsWF acc.2.candidates) : CandsWF acc'.2.candidates := by
  unfold relStep at h
  rcases hro3 : rel.o3 with _ | o3 <;> rw [hro3] at h <;> simp only at h
  · by_cases hcond : (!dhasKey acc.2.candidates rel.o1 || dhasKey acc.2.candidates rel.o2) = true
    · rw [if_pos hcond] at h
      by_cases h2e : dhasKey acc.2.candidates rel.o2 = true
      · rw [if_pos h2e] at h
        split at h
        · exact absurd h (by simp [throw, throwThe, MonadExceptOf.throw])
        · rename_i lbl heq
          rcases hmc : matchCandidates ctx tn rel.o2 rel.o1 lbl acc.2 with e | st' <;>
            rw [hmc] at h
          · rw [except_bind_error] at h
            exact absurd h (by simp)
          · rw [except_bind_ok] at h
            simp only [pure, Except.pure, Except.ok.injEq] at h
            rw [← h]
            exact CandsWF_matchCandidates ctx tn rel.o2 rel.o1 lbl acc.2 st' h2e hmc hp
      · rw [if_neg h2e] at h
        simp only [pure, Except.pure, Except.ok.injEq] at h
        rw [← h]
        exact hp
    · rw [if_neg hcond] at h
      have h1e : dhasKey acc.2.candidates rel.o1 = true := by
        rcases hb : dhasKey acc.2.candidates rel.o1 with _ | _
        · exfalso
          apply hcond
          rw [hb]
          simp
        · rfl
      rcases hmc : matchCandidates ctx tn rel.o1 rel.o2 rel.label acc.2 with e | st' <;>
        rw [hmc] at h
      · rw [except_bind_error] at h
        exact absurd h (by simp)
      · rw [except_bind_ok] at h
        simp only [pure, Except.pure, Except.ok.injEq] at h
        rw [← h]
        exact CandsWF_matchCandidates ctx tn rel.o1 rel.o2 rel.label acc.2 st' h1e hmc hp
  · rcases hd : decompose ctx rel acc.2 with e | r <;> rw [hd] at h
    · rw [except_bind_error] at h
      exact absurd h (by simp)
    · rw [except_bind_ok] at h
      have hr : CandsWF r.2.candidates :=
        CandsWF_decompose ctx rel acc.2 r.1 r.2 (by rw [hd]) hp
      by_cases hb : r.1 = true
      · rw [if_pos hb] at h
        simp only [pure, Except.pure, Except.ok.injEq] at h
        rw [← h]
        exact hr
      · rw [if_neg hb] at h
        simp only [pure, Except.pure, Except.ok.injEq] at h
        rw [← h]
        exact hr

lemma CandsWF_oneRound (ctx : Ctx W) (tn : List ℕ) (rels : List RelMention)
    (st : GState W) (r : List RelMention × GState W)
    (h : oneRound ctx tn rels st = .ok r) (hp : CandsWF st.candidates) :
    CandsWF r.2.candidates := by
  unfold oneRound at h
  exact foldlM_preserve (fun acc => CandsWF acc.2.candidates) _
    (fun acc rel acc' hstep hacc => CandsWF_relStep ctx tn acc rel acc' hstep hacc)
    rels ([], st) r h hp

lemma foldl_preserve {σ α : Type} (P : σ → Prop) (f : σ → α → σ)
    (hf : ∀ s a, P s → P (f s a)) :
    ∀ (l : List α) (s : σ), P s → P (l.foldl f s) := by
  intro l
  induction l with
  | nil => intro s hp; exact hp
  | cons a l ih => intro s hp; exact ih (f s a) (hf s a hp)

lemma CandsWF_seedStep (k : ℕ) (mm : ObjMention) (acc : DMap × Graph W)
    (e : Entity) (hp : CandsWF acc.1) : CandsWF (seedStep k mm acc e).1 := by
  unfold seedStep
  by_cases hm : mentionMatches mm e
  · rw [if_pos hm]
    exact CandsWF_dset hp (by simp)
  · rw [if_neg hm]
    exact hp

lemma CandsWF_initialGrounding (entities : List Entity)
    (ms : List ObjMention) : CandsWF (initialGrounding (W := W) entities ms).1 := by
  unfold initialGrounding
  refine foldl_preserve (fun acc => CandsWF acc.1) _ ?_ ms.enum
    (([], (⟨[], []⟩ : Graph W)) : DMap × Graph W) ?_
  · intro acc p hacc
    exact foldl_preserve (fun acc => CandsWF acc.1) _
      (fun acc e hacc => CandsWF_seedStep (p.1 + 1) p.2 acc e hacc) entities acc hacc
  · intro q hq
    exact absurd hq (List.not_mem_nil q)

lemma relateLoop_empty [LinearOrder W] [AddCommMonoid W] (ctx : Ctx W)
    (tn : List ℕ) (fuel : ℕ) (rels : List RelMention) (st : GState W)
    (lp : Option (PruneOut W)) (hne : rels.isEmpty = true) :
    relateLoop ctx tn fuel rels st lp = .ok (some (st, lp)) := by
  unfold relateLoop
  rw [if_pos hne]

lemma relateLoop_zero_stuck [LinearOrder W] [AddCommMonoid W] (ctx : Ctx W)
    (tn : List ℕ) (rels : List RelMention) (st : GState W)
    (lp : Option (PruneOut W)) (hne : rels.isEmpty = false) :
    relateLoop ctx tn 0 rels st lp = .ok none := by
  unfold relateLoop
  rw [if_neg (by simp [hne])]

lemma relateLoop_succ [LinearOrder W] [AddCommMonoid W] (ctx : Ctx W)
    (tn : List ℕ) (f : ℕ) (rels : List RelMention) (st : GState W)
    (lp : Option (PruneOut W)) (hne : rels.isEmpty = false) :
    relateLoop ctx tn (f + 1) rels st lp =
      (do
        let r ← oneRound ctx tn rels st
        match pruneTree r.2.graph with
        | .error e => throw (GErr.prune e)
        | .ok pr => relateLoop ctx tn f r.1 ⟨r.2.candidates, pr.graph⟩ (some pr)) := by
  conv_lhs => unfold relateLoop
  rw [if_neg (by simp [hne])]

lemma CandsWF_relateLoop [LinearOrder W] [AddCommMonoid W] (ctx : Ctx W)
    (tn : List ℕ) :
    ∀ (fuel : ℕ) (rels : List RelMention) (st : GState W)
      (lp : Option (PruneOut W)) (res : GState W × Option (PruneOut W)),
      relateLoop ctx tn fuel rels st lp = .ok (some res) →
      CandsWF st.candidates → CandsWF res.1.candidates := by
  intro fuel
  induction fuel with
  | zero =>
    intro rels st lp res h hp
    rcases hne : rels.isEmpty with _ | _
    · rw [relateLoop_zero_stuck ctx tn rels st lp hne] at h
      exact absurd h (by simp)
    · rw [relateLoop_empty ctx tn 0 rels st lp hne] at h
      cases h
      exact hp
  | succ f ih =>
    intro rels st lp res h hp
    rcases hne : rels.isEmpty with _ | _
    · rw [relateLoop_succ ctx tn f rels st lp hne] at h
      rcases hr : oneRound ctx tn rels st with e | r <;> rw [hr] at h
      · rw [except_bind_error] at h
        exact absurd h (by simp)
      · rw [except_bind_ok] at h
        rcases hpr : pruneTree r.2.graph with e | pr <;> rw [hpr] at h
        · exact absurd h (by simp [throw, throwThe, MonadExceptOf.throw])
        · exact ih r.1 ⟨r.2.candidates, pr.graph⟩ (some pr) res h
            (CandsWF_oneRound ctx tn rels st r hr hp)
    · rw [relateLoop_empty ctx tn (f + 1) rels st lp hne] at h
      cases h
      exact hp

lemma CandsWF_relate [LinearOrder W] [AddCommMonoid W] (ctx : Ctx W)
    (ms : Mentions) (fuel : ℕ) (res : GState W × Option (PruneOut W))
    (h : relate ctx ms fuel = .ok (some res)) : CandsWF res.1.candidates := by
  replace h : (if (initialGrounding (W := W) ctx.entities ms.objects).1.isEmpty = true
      then (Except.error GErr.reduceEmpty : Except GErr (Option (GState W × Option (PruneOut W))))
      else relateLoop ctx
        ((initialGrounding (W := W) ctx.entities ms.objects).1.foldl
          (fun acc p => listUnion acc p.2) [])
        fuel ms.relations
        ⟨(initialGrounding (W := W) ctx.entities ms.objects).1,
          (initialGrounding (W := W) ctx.entities ms.objects).2⟩ none) =
      .ok (some res) := h
  split at h
  · exact absurd h (by simp)
  · exact CandsWF_relateLoop ctx _ fuel ms.relations _ none res h
      (CandsWF_initialGrounding ctx.entities ms.objects)

end InvariantLemmas

/-- Claim C10 (confirmed): throughout a grounding call every mention id
present in the candidates dictionary maps to a nonempty entity list —
`initial_grounding` only appends a matching entity when inserting a key,
`match_candidates` only writes a union containing at least one newly
matched entity, and `decompose` only appends — and consequently
`decompose`'s accesses `candidates[o2][0]` / `candidates[o3][0]` never
hit an empty list (its only IndexError source is the location-table
lookup, a separate defect). -/
theorem candidates_nonempty_invariant {V : Type} [LinearOrder V] [AddCommMonoid V] :
    (∀ (entities : List Entity) (ms : List ObjMention),
      CandsWF (initialGrounding (W := V) entities ms).1) ∧
      (∀ (ctx : Ctx V) (tn : List ℕ) (rels : List RelMention) (st : GState V)
        (r : List RelMention × GState V),
        oneRound ctx tn rels st = .ok r → CandsWF st.candidates →
          CandsWF r.2.candidates) ∧
      (∀ (ctx : Ctx V) (rel : RelMention) (st : GState V),
        CandsWF st.candidates →
          decompose ctx rel st ≠ .error .emptyCandidates) ∧
      (∀ (ctx : Ctx V) (ms : Mentions) (fuel : ℕ)
        (res : GState V × Option (PruneOut V)),
        relate ctx ms fuel = .ok (some res) → CandsWF res.1.candidates) :=
  ⟨fun entities ms => CandsWF_initialGrounding entities ms,
    fun ctx tn rels st r => CandsWF_oneRound ctx tn rels st r,
    fun ctx rel st hp => decompose_no_emptyCandidates ctx rel st hp,
    fun ctx ms fuel res h => CandsWF_relate ctx ms fuel res h⟩

/-- Witness for C10's theorem: a seeded map is well-formed, a full
`relate` run's final candidates are well-formed, and `decompose` on the
well-formed `decSt` does not raise from an empty candidate list. -/
theorem candidates_nonempty_invariant_witness :
    CandsWF ((initialGrounding (W := ℚ) [⟨0, "cube", "red"⟩] [⟨"cube", none⟩]).1) ∧
      (relate loopCtx ⟨[⟨"cube", none⟩], []⟩ 3 =
        .ok (some (⟨[(1, [0])], ⟨[0], []⟩⟩, none))) ∧
      CandsWF (GState.candidates (W := ℚ) ⟨[(1, [0])], ⟨[0], []⟩⟩) ∧
      decompose decCtx ⟨1, 2, some 3, .between⟩ decSt ≠ .error .emptyCandidates := by
  have hrel : relate loopCtx ⟨[⟨"cube", none⟩], []⟩ 3 =
      .ok (some (⟨[(1, [0])], ⟨[0], []⟩⟩, none)) := by decide
  have hwf : CandsWF (GState.candidates (W := ℚ) ⟨[(1, [0])], ⟨[0], []⟩⟩) :=
    (candidates_nonempty_invariant (V := ℚ)).2.2.2 loopCtx ⟨[⟨"cube", none⟩], []⟩ 3
      (⟨[(1, [0])], ⟨[0], []⟩⟩, none) hrel
  refine ⟨(candidates_nonempty_invariant (V := ℚ)).1 _ _, hrel, hwf, ?_⟩
  refine (candidates_nonempty_invariant (V := ℚ)).2.2.1 decCtx ⟨1, 2, some 3, .between⟩
    decSt ?_
  show ∀ p ∈ decSt.candidates, p.2 ≠ []
  decide

end S2P
